import Mathlib

/-!
Verification of the on-device Whisper speech-to-text pipeline of the
sketchcode Android app.

The development shallowly embeds the relevant source functions:

* `WhisperInference.kt` — the autoregressive decode loop (`transcribe`,
  `processDecoderStep`, `createAttentionMask`, `argmax`), with the ONNX
  accelerator runtime abstracted as an oracle producing per-step logits and
  the accelerator-side tensor lifecycle tracked in an explicit ledger of
  allocated/closed tensor identifiers.
* `WhisperTokenizer.kt` — `decode` and `buildByteDecoder`.
* `VoiceRecorder.kt` (`AudioCapture`) — the bounded sample buffer.
* `mel_spectrogram.cpp` — both in-source revisions of
  `nativeComputeMelSpectrogram` (the centre/reflection-padded one and the
  right-zero-padded one), over the real numbers.

Kotlin `Float`/`Int` values that are only compared are embedded
polymorphically over a linear order; DSP numerics are embedded over `ℝ`.
-/

namespace Whisper

/-! ### Constants (WhisperInference.kt / WhisperTokenizer.kt) -/

def N_MELS : ℕ := 128
def N_FRAMES : ℕ := 3000
def MAX_TOKENS : ℕ := 200
def VOCAB_SIZE : ℕ := 51866
def N_LAYERS : ℕ := 4
def MAX_DEC_SEQ : ℕ := 199
def ATTN_MASK_SIZE : ℕ := MAX_DEC_SEQ + 1  -- 200

def EOT : ℕ := 50257
def SOT : ℕ := 50258
def EN : ℕ := 50259
def TRANSCRIBE : ℕ := 50360
def NO_TIMESTAMPS : ℕ := 50364
def FIRST_TIMESTAMP : ℕ := 50365
def FIRST_SPECIAL : ℕ := 50257

/-! ### `WhisperInference.argmax`

```kotlin
private fun argmax(arr: FloatArray): Int {
    var maxIdx = 0
    var maxVal = arr[0]
    for (i in 1 until arr.size) {
        if (arr[i] > maxVal) { maxVal = arr[i]; maxIdx = i }
    }
    return maxIdx
}
```

The scan is embedded structurally: `argmaxGo xs i mi mv` walks the remaining
elements `xs` starting at index `i` with current best index `mi` and value
`mv`.  `arr[0]` on an empty array raises in Kotlin; the `[]` case below is
unreachable from the decode loop (which checks for an empty logits buffer
first) and is given the dummy value `0`. -/

def argmaxGo {α : Type} [LinearOrder α] : List α → ℕ → ℕ → α → ℕ
  | [], _, mi, _ => mi
  | x :: xs, i, mi, mv =>
    if x > mv then argmaxGo xs (i + 1) i x else argmaxGo xs (i + 1) mi mv

def argmax {α : Type} [LinearOrder α] : List α → ℕ
  | [] => 0
  | a :: rest => argmaxGo rest 1 0 a

/-! ### `WhisperInference.createAttentionMask`

```kotlin
for (i in 0 until ATTN_MASK_SIZE) {
    shorts.put(if (i <= currentPos) zeroFp16 else negInfFp16)
}
```

The mask is a buffer of 200 fp16 bit patterns; `zeroFp16 = 0x0000`,
`negInfFp16 = 0xFC00` (IEEE-754 binary16 negative infinity).  In a run of the
decode loop in which no step fails, the mask for decoder step `n` (0-indexed)
is built with `currentPos = position = n`. -/

def zeroFp16 : ℕ := 0x0000
def negInfFp16 : ℕ := 0xFC00

def createAttentionMask (currentPos : ℕ) : List ℕ :=
  (List.range ATTN_MASK_SIZE).map fun i =>
    if i ≤ currentPos then zeroFp16 else negInfFp16

/-- The IEEE-754 binary16 bit pattern of `-100.0`
(sign 1, exponent 6+15 = 0b10101, mantissa 0b1001000000). -/
def neg100Fp16 : ℕ := 0xD640

/-- The mask described by the spec sentence behind claim C1: at step `n`,
exactly the `n+1` rightmost slots of the 200-wide buffer are unmasked (0.0)
and all earlier slots carry the masked value `-100.0`.
This definition follows the spec's words, for comparison with
`createAttentionMask`, which is taken from the source. -/
def specMaskC1 (n : ℕ) : List ℕ :=
  (List.range ATTN_MASK_SIZE).map fun i =>
    if ATTN_MASK_SIZE - (n + 1) ≤ i then zeroFp16 else neg100Fp16

/-! ### `WhisperTokenizer` -/

/-- Whitespace predicate used by Kotlin's `String.trim()` (via
`Char.isWhitespace`), restricted to the ASCII control/space range; only its
value on the characters actually reaching `trim` matters to the claims
below. -/
def isWhitespaceChar (c : ℕ) : Bool :=
  decide (c = 9 ∨ c = 10 ∨ c = 11 ∨ c = 12 ∨ c = 13 ∨
          c = 28 ∨ c = 29 ∨ c = 30 ∨ c = 31 ∨ c = 32)

/-- Kotlin `String.trim()`: drop leading and trailing whitespace. -/
def trimString (s : List ℕ) : List ℕ :=
  ((s.dropWhile isWhitespaceChar).reverse.dropWhile isWhitespaceChar).reverse

/-- `WhisperTokenizer.buildByteDecoder`, first phase: the three self-mapped
ranges `'!'..'~'`, `'¡'..'¬'`, `'®'..'ÿ'`. -/
def byteDecoderSelfRange : List ℕ :=
  List.range' 33 94 ++ List.range' 161 12 ++ List.range' 174 82

/-- `WhisperTokenizer.buildByteDecoder`, second phase: remaining byte values
`0..255` are appended to `bs` and mapped to code points `256 + n`. -/
def byteDecoderLists : List ℕ × List ℕ :=
  let step := fun (st : List ℕ × List ℕ × ℕ) (b : ℕ) =>
    if b ∈ st.1 then st else (st.1 ++ [b], st.2.1 ++ [256 + st.2.2], st.2.2 + 1)
  let r := (List.range 256).foldl step (byteDecoderSelfRange, byteDecoderSelfRange, 0)
  (r.1, r.2.1)

/-- The reverse mapping unicode code point → byte value
(`decoder[cs[i].toChar()] = bs[i]`). -/
def byteDecoder (c : ℕ) : Option ℕ :=
  (byteDecoderLists.2.zip byteDecoderLists.1).lookup c

/-- The BPE-string concatenation step of `WhisperTokenizer.decode`:

```kotlin
val textTokens = tokenIds.filter { it < FIRST_SPECIAL }
val bpeString = textTokens.mapNotNull { idToToken[it] }.joinToString("")
```

The vocabulary table `idToToken` (loaded from the bundled `vocab.json` asset
at construction) is a parameter; a subword string is a list of unicode code
points. -/
def bpeConcat (idToToken : ℕ → Option (List ℕ)) (tokenIds : List ℕ) : List ℕ :=
  ((tokenIds.filter fun t => t < FIRST_SPECIAL).filterMap idToToken).flatten

/-- `WhisperTokenizer.decode`.  `utf8` abstracts the JDK
`String(bytes, 0, validLen, Charsets.UTF_8)` constructor (bytes → code
points); the byte-collection loop keeping only characters present in
`byteDecoder` is `List.filterMap byteDecoder`. -/
def decode (idToToken : ℕ → Option (List ℕ)) (utf8 : List ℕ → List ℕ)
    (tokenIds : List ℕ) : List ℕ :=
  let bpeString := bpeConcat idToToken tokenIds
  let bytes := bpeString.filterMap byteDecoder
  trimString (utf8 bytes)

/-! ### `AudioCapture` (VoiceRecorder.kt)

```kotlin
while (isRecording.get() && buffer.size < MAX_SAMPLES) {
    val read = audioRecord?.read(chunk, 0, chunk.size, READ_BLOCKING) ?: 0
    if (read > 0) {
        synchronized(buffer) {
            val remaining = MAX_SAMPLES - buffer.size
            val toAdd = minOf(read, remaining)
            for (i in 0 until toAdd) { buffer.add(chunk[i]) }
        }
    }
}
```

A recording session is embedded as the list of chunks delivered by the
microphone (each chunk the `read` leading samples of the 1024-sample scratch
array).  One loop iteration appends under the `buffer.size < MAX_SAMPLES`
guard. -/

def SAMPLE_RATE : ℕ := 16000
def MAX_DURATION_SECONDS : ℕ := 30
def MAX_SAMPLES : ℕ := SAMPLE_RATE * MAX_DURATION_SECONDS  -- 480000

def appendChunk {α : Type} (buffer : List α) (chunk : List α) : List α :=
  if buffer.length < MAX_SAMPLES then
    buffer ++ chunk.take (min chunk.length (MAX_SAMPLES - buffer.length))
  else buffer

/-- Buffer contents after `start()` (which clears the buffer) followed by the
given sequence of microphone reads. -/
def recordingBuffer {α : Type} (chunks : List (List α)) : List α :=
  chunks.foldl appendChunk []

/-- `stop()` copies the buffer into the returned array. -/
def stopResult {α : Type} (chunks : List (List α)) : List α :=
  recordingBuffer chunks

/-! ### `WhisperInference.transcribe`

The ONNX runtime is abstracted:

* the encoder call is assumed to succeed (no claim concerns an encoder
  failure) and its outputs — the 8 cross-attention tensors, owned by the
  `encoderResults` object that `transcribe` closes at the end — are tracked
  as the single ledger entry `TId.encRes`;
* each decoder call is an oracle `ℕ → Except Unit (List α)` giving, per step
  index, either the step's logits buffer or an accelerator exception
  (`OrtException`), which the source catches per step.

Every accelerator-side tensor the source explicitly creates, extracts or
closes is tracked by an identifier.  Self-attention KV caches are identified
by a generation counter (`0` for the zero-initialised tensors created before
the loop, `g+1` for the tensors extracted from step outputs that replace
generation `g`); `decRes step` stands for the `OrtSession.Result` returned by
`decoder.run` at a step (the object owning the step's logits tensor), which
the source never closes. -/

inductive TId : Type
  | mel : TId
  | encRes : TId
  | inputIds : ℕ → TId
  | posIds : ℕ → TId
  | attnMask : ℕ → TId
  | selfK : ℕ → ℕ → TId
  | selfV : ℕ → ℕ → TId
  | decRes : ℕ → TId
deriving DecidableEq, Repr

/-- The three per-step input tensors built at a step. -/
def stepInputIds (step : ℕ) : List TId :=
  [TId.inputIds step, TId.posIds step, TId.attnMask step]

/-- The 8 self-attention cache tensors of generation `g`
(K then V, layers 0..3). -/
def kvIds (g : ℕ) : List TId :=
  ((List.range N_LAYERS).map (TId.selfK g ·)) ++
    ((List.range N_LAYERS).map (TId.selfV g ·))

/-- Prompt: SOT, EN, TRANSCRIBE, NO_TIMESTAMPS. -/
def promptTokens : List ℕ := [SOT, EN, TRANSCRIBE, NO_TIMESTAMPS]

structure LoopSt where
  allTokens : List ℕ
  generatedTokens : List ℕ
  position : ℕ
  cacheGen : ℕ
  allocated : List TId
  closed : List TId
  caught : Option ℕ
deriving DecidableEq, Repr

/-- One pass of `processDecoderStep` after a successful `decoder.run`:
greedy argmax, close the three per-step input tensors, extract the new
KV caches from the step results, close the old caches, then the token
bookkeeping guarded by `step >= promptTokens.size - 1`. -/
def processDecoderStep {α : Type} [LinearOrder α]
    (logits : List α) (step : ℕ) (st : LoopSt) : LoopSt :=
  let nextToken := argmax logits
  let st1 := { st with
    closed := st.closed ++ stepInputIds step,
    allocated := st.allocated ++ kvIds (st.cacheGen + 1) }
  let st2 := { st1 with
    closed := st1.closed ++ kvIds st.cacheGen,
    cacheGen := st.cacheGen + 1 }
  if promptTokens.length - 1 ≤ step then
    if nextToken = EOT then
      { st2 with allTokens := st2.allTokens ++ [EOT] }
    else if FIRST_TIMESTAMP ≤ nextToken then
      { st2 with allTokens := st2.allTokens ++ [nextToken] }
    else
      { st2 with
        generatedTokens := st2.generatedTokens ++ [nextToken],
        allTokens := st2.allTokens ++ [nextToken] }
  else st2

/-- The `catch` block of a decoder step: close the three per-step input
tensors, record the caught step, and (via the caller) break out of the
loop. -/
def decodeStepCaught (step : ℕ) (st : LoopSt) : LoopSt :=
  { st with closed := st.closed ++ stepInputIds step, caught := some step }

/-- A successful decoder step after `decoder.run` returned: the step's
`OrtSession.Result` is live, `processDecoderStep` runs, then `position++`. -/
def decodeStepOk {α : Type} [LinearOrder α]
    (logits : List α) (step : ℕ) (st : LoopSt) : LoopSt :=
  let st2 := { st with allocated := st.allocated ++ [TId.decRes step] }
  let st3 := processDecoderStep logits step st2
  { st3 with position := st3.position + 1 }

/-- The decode loop `for (step in 0 until MAX_TOKENS + promptTokens.size)`,
with the remaining iteration count as first argument.  Per iteration:

* `if (step >= allTokens.size) break`;
* build the three per-step input tensors;
* `decoder.run`: an oracle failure — or an empty logits buffer, on which
  `arr[0]` inside `argmax` raises — is caught by the per-step `catch`
  (`decodeStepCaught`), which closes the three input tensors and breaks out
  of the loop;
* otherwise `decodeStepOk` (`processDecoderStep` and `position++`), the
  prompt-phase `continue`, and the end-of-loop EOT break check. -/
def runSteps {α : Type} [LinearOrder α] (oracle : ℕ → Except Unit (List α)) :
    ℕ → ℕ → LoopSt → LoopSt
  | 0, _, st => st
  | fuel + 1, step, st =>
    if st.allTokens.length ≤ step then st
    else
      let st1 := { st with allocated := st.allocated ++ stepInputIds step }
      match oracle step with
      | .error _ => decodeStepCaught step st1
      | .ok logits =>
        if logits.isEmpty then
          decodeStepCaught step
            { st1 with allocated := st1.allocated ++ [TId.decRes step] }
        else
          let st4 := decodeStepOk logits step st1
          if step < promptTokens.length - 1 then
            runSteps oracle fuel (step + 1) st4
          else if promptTokens.length < st4.allTokens.length ∧
              st4.allTokens.getLast? = some EOT then st4
          else runSteps oracle fuel (step + 1) st4

/-- Distinguishes the three `IllegalStateException` guards at the top of
`transcribe`. -/
inductive TErr : Type
  | notInitialized : TErr
  | encoderNotLoaded : TErr
  | decoderNotLoaded : TErr
deriving DecidableEq, Repr

structure TransOut where
  generatedTokens : List ℕ
  allTokens : List ℕ
  caught : Option ℕ
  allocated : List TId
  closed : List TId
deriving DecidableEq, Repr

/-- `WhisperInference.transcribe`: the three initialization guards, the
encoder pass, the zero-initialised self caches, the decode loop, and the
final cleanup (`selfKCaches/selfVCaches.forEach close`, `melTensor.close()`,
`encoderResults.close()`).  The transcription result is
`tokenizer.decode(generatedTokens)`; this model returns the generated token
list itself together with the ledger. -/
def transcribe {α : Type} [LinearOrder α]
    (env encoderSession decoderSession : Option Unit)
    (oracle : ℕ → Except Unit (List α)) : Except TErr TransOut :=
  match env with
  | none => .error .notInitialized
  | some _ =>
  match encoderSession with
  | none => .error .encoderNotLoaded
  | some _ =>
  match decoderSession with
  | none => .error .decoderNotLoaded
  | some _ =>
    let st0 : LoopSt :=
      { allTokens := promptTokens, generatedTokens := [], position := 0,
        cacheGen := 0, allocated := [TId.mel, TId.encRes] ++ kvIds 0,
        closed := [], caught := none }
    let stF := runSteps oracle (MAX_TOKENS + promptTokens.length) 0 st0
    .ok { generatedTokens := stF.generatedTokens,
          allTokens := stF.allTokens,
          caught := stF.caught,
          allocated := stF.allocated,
          closed := stF.closed ++ kvIds stF.cacheGen ++ [TId.mel, TId.encRes] }

/-! ### `WhisperInference` lifecycle (`initialize` / `release`) -/

structure WhisperInferenceState where
  env : Option Unit
  encoderSession : Option Unit
  decoderSession : Option Unit
deriving DecidableEq, Repr

/-- A freshly constructed `WhisperInference`: all three fields are null. -/
def freshWhisper : WhisperInferenceState := ⟨none, none, none⟩

/-- `initialize()`: throws `RuntimeException` when the QNN execution provider
is unavailable, otherwise creates the environment and both sessions. -/
def initializeWhisper (qnnAvailable : Bool) : Except Unit WhisperInferenceState :=
  if qnnAvailable then .ok ⟨some (), some (), some ()⟩ else .error ()

/-- `release()`: closes both sessions and the environment and nulls all
three fields. -/
def releaseWhisper (_ : WhisperInferenceState) : WhisperInferenceState :=
  ⟨none, none, none⟩

/-! ## Supporting lemmas -/

lemma countP_range_le (n : ℕ) : ∀ m : ℕ,
    (List.range m).countP (fun i => decide (i ≤ n)) = min (n + 1) m := by
  intro m
  induction m with
  | zero => simp
  | succ m ih =>
    rw [List.range_succ, List.countP_append, ih]
    by_cases h : m ≤ n
    · rw [List.countP_cons, List.countP_nil, if_pos (by simpa using h)]
      simp only [Nat.min_def]
      split_ifs <;> omega
    · rw [List.countP_cons, List.countP_nil, if_neg (by simpa using h)]
      simp only [Nat.min_def]
      split_ifs <;> omega

lemma createAttentionMask_getD (n i : ℕ) (hi : i < ATTN_MASK_SIZE) (d : ℕ) :
    (createAttentionMask n).getD i d = if i ≤ n then zeroFp16 else negInfFp16 := by
  have hlen : i < (createAttentionMask n).length := by
    simpa [createAttentionMask] using hi
  rw [List.getD_eq_getElem _ _ hlen]
  simp [createAttentionMask]

/-! ## Claim C1 -/

/-- Claim C1, as stated, is false on the code: at decoder step 0 the mask
built by `createAttentionMask` is `0.0` at the *left* end and fp16 `-∞`
(`0xFC00`) everywhere else, whereas the claim requires the single unmasked
slot at the right end of the buffer and the masked value `-100.0` (`0xD640`).
The two buffers differ (already at both ends). -/
theorem c1_mask_counterexample :
    createAttentionMask 0 ≠ specMaskC1 0 ∧
    (createAttentionMask 0).getD 0 0 = zeroFp16 ∧
    (specMaskC1 0).getD 0 0 = neg100Fp16 ∧
    (createAttentionMask 0).getD 199 0 = negInfFp16 ∧
    (specMaskC1 0).getD 199 0 = zeroFp16 := by
  refine ⟨?_, by decide, by decide, by decide, by decide⟩
  intro h
  have := congrArg (fun l => List.getD l 0 0) h
  simp only [createAttentionMask, specMaskC1] at this
  revert this
  decide

/-- Amended claim C1: the mask built with `currentPos = n` (which is the mask
of decoder step `n` in a failure-free run) has fixed width 200 and unmasks
from the *left* end: slot `i` is unmasked (`0.0`) exactly for `i ≤ n`, every
other slot holds fp16 negative infinity `0xFC00` (not `-100.0`), and for
`n < 200` exactly `n+1` slots are unmasked; from step 199 on, every slot is
unmasked. -/
theorem c1_mask_amended (n : ℕ) :
    (createAttentionMask n).length = ATTN_MASK_SIZE ∧
    (createAttentionMask n).count zeroFp16 = min (n + 1) ATTN_MASK_SIZE ∧
    (∀ i, i < ATTN_MASK_SIZE →
      (createAttentionMask n).getD i 0 = if i ≤ n then zeroFp16 else negInfFp16) ∧
    (∀ x ∈ createAttentionMask n, x = zeroFp16 ∨ x = negInfFp16) := by
  refine ⟨by simp [createAttentionMask], ?_, ?_, ?_⟩
  · rw [createAttentionMask, List.count_eq_countP, List.countP_map]
    have : ∀ i : ℕ,
        ((if i ≤ n then zeroFp16 else negInfFp16) == zeroFp16) =
          decide (i ≤ n) := by
      intro i
      by_cases h : i ≤ n <;> simp [h, zeroFp16, negInfFp16]
    calc (List.range ATTN_MASK_SIZE).countP
          (fun i => (if i ≤ n then zeroFp16 else negInfFp16) == zeroFp16)
        = (List.range ATTN_MASK_SIZE).countP (fun i => decide (i ≤ n)) := by
          exact List.countP_congr (fun i _ => by rw [this])
      _ = min (n + 1) ATTN_MASK_SIZE := countP_range_le n ATTN_MASK_SIZE
  · intro i hi
    exact createAttentionMask_getD n i hi 0
  · intro x hx
    simp only [createAttentionMask, List.mem_map] at hx
    obtain ⟨i, _, hix⟩ := hx
    by_cases h : i ≤ n
    · left; simp [h] at hix; omega
    · right; simp [h] at hix; omega

/-- Witness for `c1_mask_amended` at `n = 5`. -/
theorem c1_mask_amended_witness :
    (createAttentionMask 5).count zeroFp16 = 6 ∧
    (createAttentionMask 5).getD 0 0 = zeroFp16 := by
  have h := c1_mask_amended 5
  refine ⟨?_, ?_⟩
  · have := h.2.1
    simpa [ATTN_MASK_SIZE, MAX_DEC_SEQ] using this
  · simpa using h.2.2.1 0 (by decide)

/-! ## Claim C9 -/

lemma argmaxGo_cases {α : Type} [LinearOrder α] (d : α) :
    ∀ (xs : List α) (i mi : ℕ) (mv : α),
    (argmaxGo xs i mi mv = mi ∧ ∀ x ∈ xs, x ≤ mv) ∨
    (∃ k, k < xs.length ∧ argmaxGo xs i mi mv = i + k ∧
      mv < xs.getD k d ∧
      (∀ m, m < xs.length → xs.getD m d ≤ xs.getD k d) ∧
      (∀ m, m < k → xs.getD m d < xs.getD k d)) := by
  intro xs
  induction xs with
  | nil => intro i mi mv; left; exact ⟨rfl, by simp⟩
  | cons x xs ih =>
    intro i mi mv
    by_cases hx : x > mv
    · rcases ih (i + 1) i x with ⟨heq, hle⟩ | ⟨k, hk, heq, hlt, hmax, hfirst⟩
      · right
        refine ⟨0, by simp, by simp [argmax, argmaxGo, hx, heq], by simpa using hx,
          ?_, by omega⟩
        intro m hm
        match m with
        | 0 => simp
        | m + 1 =>
          simp only [List.getD_cons_succ, List.getD_cons_zero]
          have hm2 : m < xs.length := by simpa using hm
          rw [List.getD_eq_getElem _ _ hm2]
          exact hle _ (List.getElem_mem hm2)
      · right
        refine ⟨k + 1, by simpa using hk, ?_, ?_, ?_, ?_⟩
        · simp only [argmaxGo, if_pos hx, heq]; omega
        · simpa using lt_trans hx hlt
        · intro m hm
          match m with
          | 0 => simpa using le_of_lt hlt
          | m + 1 =>
            simp only [List.getD_cons_succ]
            exact hmax m (by simpa using hm)
        · intro m hm
          match m with
          | 0 => simpa using hlt
          | m + 1 =>
            simp only [List.getD_cons_succ]
            exact hfirst m (by omega)
    · rcases ih (i + 1) mi mv with ⟨heq, hle⟩ | ⟨k, hk, heq, hlt, hmax, hfirst⟩
      · left
        refine ⟨by simp [argmaxGo, hx, heq], ?_⟩
        intro y hy
        rcases List.mem_cons.mp hy with h | h
        · exact h ▸ le_of_not_lt hx
        · exact hle y h
      · right
        refine ⟨k + 1, by simpa using hk, ?_, hlt, ?_, ?_⟩
        · simp only [argmaxGo, if_neg hx, heq]; omega
        · intro m hm
          match m with
          | 0 =>
            simpa using le_trans (le_of_not_lt hx) (le_of_lt hlt)
          | m + 1 =>
            simp only [List.getD_cons_succ]
            exact hmax m (by simpa using hm)
        · intro m hm
          match m with
          | 0 => simpa using lt_of_le_of_lt (le_of_not_lt hx) hlt
          | m + 1 =>
            simp only [List.getD_cons_succ]
            exact hfirst m (by omega)

/-- Claim C9: on a non-empty logits array, the greedy selection `argmax`
returns an in-range index whose value is the maximum, and every strictly
earlier index holds a strictly smaller value — so `argmax` returns the
*smallest* index attaining the maximum (the `>` comparison is strict), and
greedy decoding is a deterministic function of the logits even when the
maximum is attained several times. -/
theorem c9_argmax_first_max {α : Type} [LinearOrder α]
    (arr : List α) (d : α) (h : arr ≠ []) :
    argmax arr < arr.length ∧
    (∀ j, j < arr.length → arr.getD j d ≤ arr.getD (argmax arr) d) ∧
    (∀ j, j < argmax arr → arr.getD j d < arr.getD (argmax arr) d) := by
  match arr, h with
  | a :: rest, _ =>
    rcases argmaxGo_cases d rest 1 0 a with ⟨heq, hle⟩ | ⟨k, hk, heq, hlt, hmax, hfirst⟩
    · have hres : argmax (a :: rest) = 0 := heq
      rw [hres]
      refine ⟨by simp, ?_, by omega⟩
      intro j hj
      match j with
      | 0 => simp
      | j + 1 =>
        simp only [List.getD_cons_succ, List.getD_cons_zero]
        have hj2 : j < rest.length := by simpa using hj
        rw [List.getD_eq_getElem _ _ hj2]
        exact hle _ (List.getElem_mem hj2)
    · have hres : argmax (a :: rest) = k + 1 := by
        rw [show argmax (a :: rest) = argmaxGo rest 1 0 a from rfl, heq]; omega
      rw [hres]
      refine ⟨by simpa using hk, ?_, ?_⟩
      · intro j hj
        match j with
        | 0 => simpa using le_of_lt hlt
        | j + 1 =>
          simp only [List.getD_cons_succ]
          exact hmax j (by simpa using hj)
      · intro j hj
        match j with
        | 0 => simpa using hlt
        | j + 1 =>
          simp only [List.getD_cons_succ]
          exact hfirst j (by omega)

/-- Witness for `c9_argmax_first_max`: on `[1, 2, 2]` the maximum is attained
at indices 1 and 2 and `argmax` picks index 1. -/
theorem c9_argmax_first_max_witness :
    ([1, 2, 2] ≠ ([] : List ℤ)) ∧
    (argmax [(1 : ℤ), 2, 2] < 3 ∧
      (∀ j, j < ([(1 : ℤ), 2, 2] : List ℤ).length →
        [(1 : ℤ), 2, 2].getD j 0 ≤ [(1 : ℤ), 2, 2].getD (argmax [(1 : ℤ), 2, 2]) 0) ∧
      (∀ j, j < argmax [(1 : ℤ), 2, 2] →
        [(1 : ℤ), 2, 2].getD j 0 < [(1 : ℤ), 2, 2].getD (argmax [(1 : ℤ), 2, 2]) 0)) :=
  ⟨by decide, by
    have h := c9_argmax_first_max [(1 : ℤ), 2, 2] 0 (by decide)
    simpa using h⟩

/-! ## Claim C7 -/

lemma bpeConcat_eq_nil_of_degenerate (idToToken : ℕ → Option (List ℕ))
    (ids : List ℕ) (h : ∀ t ∈ ids, FIRST_SPECIAL ≤ t ∨ idToToken t = none) :
    bpeConcat idToToken ids = [] := by
  unfold bpeConcat
  have hfm : (ids.filter fun t => decide (t < FIRST_SPECIAL)).filterMap idToToken = [] := by
    rw [List.filterMap_eq_nil_iff]
    intro a ha
    rw [List.mem_filter] at ha
    rcases h a ha.1 with hge | hnone
    · exact absurd (of_decide_eq_true ha.2) (by omega)
    · exact hnone
  rw [hfm, List.flatten_nil]

lemma bpeConcat_cons_lt_some (idToToken : ℕ → Option (List ℕ)) (t : ℕ)
    (ids s : List ℕ) (h1 : t < FIRST_SPECIAL) (h2 : idToToken t = some s) :
    bpeConcat idToToken (t :: ids) = s ++ bpeConcat idToToken ids := by
  unfold bpeConcat
  rw [List.filter_cons, if_pos (by simpa using h1),
    List.filterMap_cons_some h2, List.flatten_cons]

lemma bpeConcat_cons_lt_none (idToToken : ℕ → Option (List ℕ)) (t : ℕ)
    (ids : List ℕ) (h1 : t < FIRST_SPECIAL) (h2 : idToToken t = none) :
    bpeConcat idToToken (t :: ids) = bpeConcat idToToken ids := by
  unfold bpeConcat
  rw [List.filter_cons, if_pos (by simpa using h1), List.filterMap_cons_none h2]

lemma bpeConcat_cons_ge (idToToken : ℕ → Option (List ℕ)) (t : ℕ)
    (ids : List ℕ) (h1 : ¬ t < FIRST_SPECIAL) :
    bpeConcat idToToken (t :: ids) = bpeConcat idToToken ids := by
  unfold bpeConcat
  rw [List.filter_cons, if_neg (by simpa using h1)]

lemma bpeConcat_filter_survivors (idToToken : ℕ → Option (List ℕ)) :
    ∀ ids : List ℕ,
      bpeConcat idToToken
        (ids.filter fun t => decide (t < FIRST_SPECIAL) && (idToToken t).isSome) =
      bpeConcat idToToken ids := by
  intro ids
  induction ids with
  | nil => rfl
  | cons t ids ih =>
    rw [List.filter_cons]
    by_cases h1 : t < FIRST_SPECIAL
    · rcases h2 : idToToken t with _ | s
      · rw [if_neg (by simp [h1, h2]), ih,
          bpeConcat_cons_lt_none idToToken t ids h1 h2]
      · rw [if_pos (by simp [h1, h2]),
          bpeConcat_cons_lt_some idToToken t _ s h1 h2,
          bpeConcat_cons_lt_some idToToken t ids s h1 h2, ih]
    · rw [if_neg (by simp [h1]), ih, bpeConcat_cons_ge idToToken t ids h1]

/-- Claim C7: `decode` filters out every ID `≥ 50257` (`FIRST_SPECIAL`),
silently skips IDs with no vocabulary entry (the decode never aborts — the
model function is total), concatenates the surviving subword strings in input
order (`bpeConcat` is a homomorphism w.r.t. concatenation), and on the empty
list — or any list containing only special-token IDs and IDs absent from the
vocabulary — returns the empty string.  `utf8` abstracts the JDK UTF-8
decoder, which maps the empty byte array to the empty string. -/
theorem c7_decode_filters (idToToken : ℕ → Option (List ℕ))
    (utf8 : List ℕ → List ℕ) (hutf8 : utf8 [] = []) :
    decode idToToken utf8 [] = [] ∧
    (∀ ids, (∀ t ∈ ids, FIRST_SPECIAL ≤ t ∨ idToToken t = none) →
      decode idToToken utf8 ids = []) ∧
    (∀ ids, decode idToToken utf8
        (ids.filter fun t => decide (t < FIRST_SPECIAL) && (idToToken t).isSome) =
      decode idToToken utf8 ids) ∧
    (∀ a b, bpeConcat idToToken (a ++ b) =
      bpeConcat idToToken a ++ bpeConcat idToToken b) := by
  have hnil : ∀ ids, bpeConcat idToToken ids = [] → decode idToToken utf8 ids = [] := by
    intro ids h
    unfold decode
    rw [h]
    simp [hutf8, trimString]
  refine ⟨?_, ?_, ?_, ?_⟩
  · exact hnil [] rfl
  · intro ids h
    exact hnil ids (bpeConcat_eq_nil_of_degenerate idToToken ids h)
  · intro ids
    unfold decode
    rw [bpeConcat_filter_survivors]
  · intro a b
    simp [bpeConcat, List.filter_append, List.filterMap_append]

/-- Witness for `c7_decode_filters` with the empty vocabulary and the
identity byte decoder. -/
theorem c7_decode_filters_witness :
    ((fun l : List ℕ => l) [] = []) ∧
    (decode (fun _ => none) (fun l => l) [] = [] ∧
      (∀ ids, (∀ t ∈ ids, FIRST_SPECIAL ≤ t ∨ (fun _ : ℕ => (none : Option (List ℕ))) t = none) →
        decode (fun _ => none) (fun l => l) ids = []) ∧
      (∀ ids, decode (fun _ => none) (fun l => l)
          (ids.filter fun t => decide (t < FIRST_SPECIAL) &&
            ((fun _ : ℕ => (none : Option (List ℕ))) t).isSome) =
        decode (fun _ => none) (fun l => l) ids) ∧
      (∀ a b, bpeConcat (fun _ => none) (a ++ b) =
        bpeConcat (fun _ => none) a ++ bpeConcat (fun _ => none) b)) :=
  ⟨rfl, c7_decode_filters (fun _ => none) (fun l => l) rfl⟩

/-! ## Claim C8 -/

lemma appendChunk_length_le {α : Type} (buffer chunk : List α)
    (h : buffer.length ≤ MAX_SAMPLES) :
    (appendChunk buffer chunk).length ≤ MAX_SAMPLES := by
  unfold appendChunk
  split_ifs with hlt
  · rw [List.length_append]
    have := List.length_take (min chunk.length (MAX_SAMPLES - buffer.length)) chunk
    omega
  · exact h

lemma foldl_appendChunk_le {α : Type} :
    ∀ (chunks : List (List α)) (buffer : List α), buffer.length ≤ MAX_SAMPLES →
      (chunks.foldl appendChunk buffer).length ≤ MAX_SAMPLES := by
  intro chunks
  induction chunks with
  | nil => intro buffer h; exact h
  | cons c cs ih =>
    intro buffer h
    exact ih (appendChunk buffer c) (appendChunk_length_le buffer c h)

/-- Claim C8: the capture buffer never exceeds
`MAX_DURATION_SECONDS * SAMPLE_RATE = 480000` samples at any point of a
recording session (after any prefix of microphone reads), the clip returned
by `stop()` is at most 480000 samples for every session, and once the buffer
is full an append step drops all further samples. -/
theorem c8_capture_bounded {α : Type} :
    (∀ (chunks : List (List α)) (n : ℕ),
      ((chunks.take n).foldl appendChunk []).length ≤ MAX_SAMPLES) ∧
    (∀ chunks : List (List α), (stopResult chunks).length ≤ MAX_SAMPLES) ∧
    (∀ buffer chunk : List α, MAX_SAMPLES ≤ buffer.length →
      appendChunk buffer chunk = buffer) := by
  refine ⟨?_, ?_, ?_⟩
  · intro chunks n
    exact foldl_appendChunk_le (chunks.take n) [] (by simp)
  · intro chunks
    exact foldl_appendChunk_le chunks [] (by simp)
  · intro buffer chunk h
    unfold appendChunk
    rw [if_neg (by omega)]

/-- Witness for `c8_capture_bounded`: a full buffer drops a fresh sample. -/
theorem c8_capture_bounded_witness :
    MAX_SAMPLES ≤ (List.replicate MAX_SAMPLES (0 : ℤ)).length ∧
    appendChunk (List.replicate MAX_SAMPLES (0 : ℤ)) [1] =
      List.replicate MAX_SAMPLES 0 :=
  ⟨by simp, (c8_capture_bounded (α := ℤ)).2.2 (List.replicate MAX_SAMPLES 0) [1] (by simp)⟩

/-! ## Claim C10 -/

/-- Claim C10: on a `WhisperInference` on which `initialize()` has never been
called — or on which `release()` has been called since — `transcribe` fails
with the `IllegalStateException` of the very first guard
(`this.env ?: throw IllegalStateException("Not initialized")`), for every
oracle behaviour; the guards sit before the creation of any tensor and before
the encoder call, and the model's error result carries no allocation, so no
encoder or decoder step runs and the instance state is untouched. -/
theorem c10_uninitialized_guard {α : Type} [LinearOrder α] :
    (∀ oracle : ℕ → Except Unit (List α),
      transcribe freshWhisper.env freshWhisper.encoderSession
        freshWhisper.decoderSession oracle = .error .notInitialized) ∧
    (∀ (st : WhisperInferenceState) (oracle : ℕ → Except Unit (List α)),
      transcribe (releaseWhisper st).env (releaseWhisper st).encoderSession
        (releaseWhisper st).decoderSession oracle = .error .notInitialized) :=
  ⟨fun _ => rfl, fun _ _ => rfl⟩

/-! ## Claims C2 and C3: decode-loop lemmas -/

section LoopLemmas

variable {α : Type} [LinearOrder α]

lemma processDecoderStep_allocated (logits : List α) (step : ℕ) (st : LoopSt) :
    (processDecoderStep logits step st).allocated =
      st.allocated ++ kvIds (st.cacheGen + 1) := by
  unfold processDecoderStep
  dsimp only
  split_ifs <;> rfl

lemma processDecoderStep_closed (logits : List α) (step : ℕ) (st : LoopSt) :
    (processDecoderStep logits step st).closed =
      st.closed ++ stepInputIds step ++ kvIds st.cacheGen := by
  unfold processDecoderStep
  dsimp only
  split_ifs <;> rfl

lemma processDecoderStep_cacheGen (logits : List α) (step : ℕ) (st : LoopSt) :
    (processDecoderStep logits step st).cacheGen = st.cacheGen + 1 := by
  unfold processDecoderStep
  dsimp only
  split_ifs <;> rfl

lemma processDecoderStep_gen_le (logits : List α) (step : ℕ) (st : LoopSt) :
    (processDecoderStep logits step st).generatedTokens.length ≤
      st.generatedTokens.length + 1 := by
  unfold processDecoderStep
  dsimp only
  split_ifs <;> simp

lemma processDecoderStep_all_le (logits : List α) (step : ℕ) (st : LoopSt) :
    (processDecoderStep logits step st).allTokens.length ≤
      st.allTokens.length + 1 := by
  unfold processDecoderStep
  dsimp only
  split_ifs <;> simp

lemma processDecoderStep_prompt (logits : List α) (step : ℕ) (st : LoopSt)
    (h : step < promptTokens.length - 1) :
    (processDecoderStep logits step st).generatedTokens = st.generatedTokens ∧
    (processDecoderStep logits step st).allTokens = st.allTokens := by
  unfold processDecoderStep
  dsimp only
  rw [if_neg (by omega)]
  exact ⟨rfl, rfl⟩

lemma decodeStepCaught_gen (step : ℕ) (st : LoopSt) :
    (decodeStepCaught step st).generatedTokens = st.generatedTokens := rfl

lemma decodeStepCaught_all (step : ℕ) (st : LoopSt) :
    (decodeStepCaught step st).allTokens = st.allTokens := rfl

lemma decodeStepOk_gen_le (logits : List α) (step : ℕ) (st : LoopSt) :
    (decodeStepOk logits step st).generatedTokens.length ≤
      st.generatedTokens.length + 1 :=
  processDecoderStep_gen_le logits step _

lemma decodeStepOk_all_le (logits : List α) (step : ℕ) (st : LoopSt) :
    (decodeStepOk logits step st).allTokens.length ≤
      st.allTokens.length + 1 :=
  processDecoderStep_all_le logits step _

lemma decodeStepOk_prompt (logits : List α) (step : ℕ) (st : LoopSt)
    (h : step < promptTokens.length - 1) :
    (decodeStepOk logits step st).generatedTokens = st.generatedTokens ∧
    (decodeStepOk logits step st).allTokens = st.allTokens :=
  processDecoderStep_prompt logits step _ h

lemma allocUpdate_gen (st : LoopSt) (a : List TId) :
    ({ st with allocated := a } : LoopSt).generatedTokens = st.generatedTokens := rfl

lemma allocUpdate_all (st : LoopSt) (a : List TId) :
    ({ st with allocated := a } : LoopSt).allTokens = st.allTokens := rfl

lemma runSteps_growth (oracle : ℕ → Except Unit (List α)) :
    ∀ (fuel step : ℕ) (st : LoopSt),
      (runSteps oracle fuel step st).generatedTokens.length ≤
        st.generatedTokens.length + fuel ∧
      (runSteps oracle fuel step st).allTokens.length ≤
        st.allTokens.length + fuel := by
  intro fuel
  induction fuel with
  | zero => intro step st; exact ⟨by simp [runSteps], by simp [runSteps]⟩
  | succ fuel ih =>
    intro step st
    rw [runSteps]
    by_cases hbrk : st.allTokens.length ≤ step
    · rw [if_pos hbrk]; exact ⟨by omega, by omega⟩
    rw [if_neg hbrk]
    dsimp only
    cases horacle : oracle step with
    | error e =>
      dsimp only
      constructor
      · show st.generatedTokens.length ≤ st.generatedTokens.length + (fuel + 1)
        omega
      · show st.allTokens.length ≤ st.allTokens.length + (fuel + 1)
        omega
    | ok logits =>
      dsimp only
      by_cases hempty : logits.isEmpty
      · rw [if_pos hempty]
        constructor
        · show st.generatedTokens.length ≤ st.generatedTokens.length + (fuel + 1)
          omega
        · show st.allTokens.length ≤ st.allTokens.length + (fuel + 1)
          omega
      rw [if_neg hempty]
      have hg : (decodeStepOk logits step
            { st with allocated := st.allocated ++ stepInputIds step }).generatedTokens.length ≤
          st.generatedTokens.length + 1 :=
        decodeStepOk_gen_le logits step _
      have ha : (decodeStepOk logits step
            { st with allocated := st.allocated ++ stepInputIds step }).allTokens.length ≤
          st.allTokens.length + 1 :=
        decodeStepOk_all_le logits step _
      by_cases hp : step < promptTokens.length - 1
      · rw [if_pos hp]
        have ihh := ih (step + 1)
          (decodeStepOk logits step { st with allocated := st.allocated ++ stepInputIds step })
        exact ⟨by omega, by omega⟩
      rw [if_neg hp]
      by_cases he : promptTokens.length <
          (decodeStepOk logits step
            { st with allocated := st.allocated ++ stepInputIds step }).allTokens.length ∧
          (decodeStepOk logits step
            { st with allocated := st.allocated ++ stepInputIds step }).allTokens.getLast? =
            some EOT
      · rw [if_pos he]
        exact ⟨by omega, by omega⟩
      · rw [if_neg he]
        have ihh := ih (step + 1)
          (decodeStepOk logits step { st with allocated := st.allocated ++ stepInputIds step })
        exact ⟨by omega, by omega⟩

lemma runSteps_growth_prompt (oracle : ℕ → Except Unit (List α)) :
    ∀ (fuel step : ℕ) (st : LoopSt), step < promptTokens.length - 1 →
      (runSteps oracle fuel step st).generatedTokens.length ≤
        st.generatedTokens.length + (fuel - (promptTokens.length - 1 - step)) ∧
      (runSteps oracle fuel step st).allTokens.length ≤
        st.allTokens.length + (fuel - (promptTokens.length - 1 - step)) := by
  intro fuel
  induction fuel with
  | zero => intro step st _; exact ⟨by simp [runSteps], by simp [runSteps]⟩
  | succ fuel ih =>
    intro step st hstep
    rw [runSteps]
    by_cases hbrk : st.allTokens.length ≤ step
    · rw [if_pos hbrk]; exact ⟨by omega, by omega⟩
    rw [if_neg hbrk]
    dsimp only
    cases horacle : oracle step with
    | error e =>
      dsimp only
      constructor
      · show st.generatedTokens.length ≤ st.generatedTokens.length + _
        omega
      · show st.allTokens.length ≤ st.allTokens.length + _
        omega
    | ok logits =>
      dsimp only
      by_cases hempty : logits.isEmpty
      · rw [if_pos hempty]
        constructor
        · show st.generatedTokens.length ≤ st.generatedTokens.length + _
          omega
        · show st.allTokens.length ≤ st.allTokens.length + _
          omega
      rw [if_neg hempty, if_pos hstep]
      -- prompt phase: the step leaves both token lists untouched
      have heq : (decodeStepOk logits step
            { st with allocated := st.allocated ++ stepInputIds step }).generatedTokens =
            st.generatedTokens ∧
          (decodeStepOk logits step
            { st with allocated := st.allocated ++ stepInputIds step }).allTokens =
            st.allTokens :=
        decodeStepOk_prompt logits step _ hstep
      by_cases hnext : step + 1 < promptTokens.length - 1
      · have ihh := ih (step + 1)
          (decodeStepOk logits step { st with allocated := st.allocated ++ stepInputIds step })
          hnext
        rw [heq.1, heq.2] at ihh
        exact ⟨by omega, by omega⟩
      · have ihh := runSteps_growth oracle fuel (step + 1)
          (decodeStepOk logits step { st with allocated := st.allocated ++ stepInputIds step })
        rw [heq.1, heq.2] at ihh
        have h4 : promptTokens.length = 4 := rfl
        exact ⟨by omega, by omega⟩

/-- The per-step tensor-lifecycle invariant of the decode loop: every
allocated tensor that has not been closed is the mel tensor, the encoder
results, one of the current-generation self-attention caches, or a per-step
decoder `OrtSession.Result`. -/
def LedgerOK (st : LoopSt) : Prop :=
  ∀ t ∈ st.allocated, t ∉ st.closed →
    t = TId.mel ∨ t = TId.encRes ∨ t ∈ kvIds st.cacheGen ∨ ∃ s, t = TId.decRes s

lemma ledgerOK_caught (step : ℕ) (st : LoopSt) (h : LedgerOK st) :
    LedgerOK (decodeStepCaught step
      { st with allocated := st.allocated ++ stepInputIds step }) := by
  intro t ht hnc
  have ht2 : t ∈ st.allocated ++ stepInputIds step := ht
  have hnc2 : t ∉ st.closed ++ stepInputIds step := hnc
  rcases List.mem_append.mp ht2 with h1 | h1
  · have hn : t ∉ st.closed := fun hc => hnc2 (List.mem_append_left _ hc)
    exact h t h1 hn
  · exact absurd (List.mem_append_right _ h1) hnc2

lemma ledgerOK_caught_empty (step : ℕ) (st : LoopSt) (h : LedgerOK st) :
    LedgerOK (decodeStepCaught step
      { st with allocated := st.allocated ++ stepInputIds step ++ [TId.decRes step] }) := by
  intro t ht hnc
  have ht2 : t ∈ st.allocated ++ stepInputIds step ++ [TId.decRes step] := ht
  have hnc2 : t ∉ st.closed ++ stepInputIds step := hnc
  rcases List.mem_append.mp ht2 with h1 | h1
  · rcases List.mem_append.mp h1 with h2 | h2
    · have hn : t ∉ st.closed := fun hc => hnc2 (List.mem_append_left _ hc)
      exact h t h2 hn
    · exact absurd (List.mem_append_right _ h2) hnc2
  · right; right; right
    exact ⟨step, by simpa using h1⟩

lemma ledgerOK_ok {α : Type} [LinearOrder α] (logits : List α) (step : ℕ)
    (st : LoopSt) (h : LedgerOK st) :
    LedgerOK (decodeStepOk logits step
      { st with allocated := st.allocated ++ stepInputIds step }) := by
  have hal : (decodeStepOk logits step
      { st with allocated := st.allocated ++ stepInputIds step }).allocated =
      st.allocated ++ stepInputIds step ++ [TId.decRes step] ++ kvIds (st.cacheGen + 1) := by
    show (processDecoderStep logits step _).allocated = _
    rw [processDecoderStep_allocated]
  have hcl : (decodeStepOk logits step
      { st with allocated := st.allocated ++ stepInputIds step }).closed =
      st.closed ++ stepInputIds step ++ kvIds st.cacheGen := by
    show (processDecoderStep logits step _).closed = _
    rw [processDecoderStep_closed]
  have hcg : (decodeStepOk logits step
      { st with allocated := st.allocated ++ stepInputIds step }).cacheGen =
      st.cacheGen + 1 := by
    show (processDecoderStep logits step _).cacheGen = _
    rw [processDecoderStep_cacheGen]
  intro t ht hnc
  rw [hal] at ht
  rw [hcl] at hnc
  rw [hcg]
  rcases List.mem_append.mp ht with h1 | h1
  · rcases List.mem_append.mp h1 with h2 | h2
    · rcases List.mem_append.mp h2 with h3 | h3
      · have hn : t ∉ st.closed := fun hc =>
          hnc (List.mem_append_left _ (List.mem_append_left _ hc))
        rcases h t h3 hn with hm | he | hk | hd
        · exact Or.inl hm
        · exact Or.inr (Or.inl he)
        · exact absurd (List.mem_append_right _ hk) hnc
        · exact Or.inr (Or.inr (Or.inr hd))
      · exact absurd (List.mem_append_left _ (List.mem_append_right _ h3)) hnc
    · right; right; right
      exact ⟨step, by simpa using h2⟩
  · right; right; left
    exact h1

lemma runSteps_ledger {α : Type} [LinearOrder α] (oracle : ℕ → Except Unit (List α)) :
    ∀ (fuel step : ℕ) (st : LoopSt), LedgerOK st →
      LedgerOK (runSteps oracle fuel step st) := by
  intro fuel
  induction fuel with
  | zero => intro step st h; simpa [runSteps] using h
  | succ fuel ih =>
    intro step st h
    rw [runSteps]
    by_cases hbrk : st.allTokens.length ≤ step
    · rw [if_pos hbrk]; exact h
    rw [if_neg hbrk]
    dsimp only
    cases horacle : oracle step with
    | error e => exact ledgerOK_caught step st h
    | ok logits =>
      dsimp only
      by_cases hempty : logits.isEmpty
      · rw [if_pos hempty]
        exact ledgerOK_caught_empty step st h
      rw [if_neg hempty]
      by_cases hp : step < promptTokens.length - 1
      · rw [if_pos hp]
        exact ih (step + 1) _ (ledgerOK_ok logits step st h)
      rw [if_neg hp]
      by_cases he : promptTokens.length <
          (decodeStepOk logits step
            { st with allocated := st.allocated ++ stepInputIds step }).allTokens.length ∧
          (decodeStepOk logits step
            { st with allocated := st.allocated ++ stepInputIds step }).allTokens.getLast? =
            some EOT
      · rw [if_pos he]
        exact ledgerOK_ok logits step st h
      · rw [if_neg he]
        exact ih (step + 1) _ (ledgerOK_ok logits step st h)

end LoopLemmas

/-! ## Claim C2 -/

set_option maxRecDepth 10000 in
/-- Claim C2, as stated, is false on the code: with an oracle whose decoder
step 5 raises an accelerator exception (steps 0–4 succeed, always selecting
token 0), `transcribe` does *not* surface a failure — it returns a normal
result carrying the two tokens generated before the failing step (the text
of which `tokenizer.decode` then produces), with the caught step recorded by
the model; moreover the per-step decoder `Result` of step 0 stays
unreleased. -/
theorem c2_counterexample :
    (transcribe (α := ℤ) (some ()) (some ()) (some ())
        (fun s => if s < 5 then .ok [0] else .error ())).map
        (fun o => (o.generatedTokens, o.caught,
          decide (TId.decRes 0 ∈ o.allocated), decide (TId.decRes 0 ∈ o.closed))) =
      .ok ([0, 0], some 5, true, false) := by rfl

/-- Amended claim C2: a decoder-step exception is caught inside the loop —
that step's three input tensors are closed and the loop is aborted — but the
whole call still returns a *normal* result containing the tokens generated
before the failing step (no failure is surfaced to the caller), and the final
cleanup closes the self-attention caches, the mel tensor and the encoder
results; every allocated tensor left unclosed is one of the per-step decoder
`OrtSession.Result` objects (which `transcribe` never closes, failure or
not). -/
theorem c2_partial_text_returned {α : Type} [LinearOrder α]
    (oracle : ℕ → Except Unit (List α)) :
    ∃ out, transcribe (some ()) (some ()) (some ()) oracle = .ok out ∧
      ∀ t ∈ out.allocated, t ∉ out.closed → ∃ s, t = TId.decRes s := by
  refine ⟨_, rfl, ?_⟩
  intro t ht hnc
  have h0 : LedgerOK
      { allTokens := promptTokens, generatedTokens := [], position := 0,
        cacheGen := 0, allocated := [TId.mel, TId.encRes] ++ kvIds 0,
        closed := [], caught := none } := by
    intro u hu _
    rcases List.mem_append.mp hu with h1 | h1
    · rcases List.mem_cons.mp h1 with h2 | h2
      · exact Or.inl h2
      · exact Or.inr (Or.inl (by simpa using h2))
    · exact Or.inr (Or.inr (Or.inl h1))
  have hL := runSteps_ledger oracle (MAX_TOKENS + promptTokens.length) 0 _ h0
  have ht2 : t ∈ (runSteps oracle (MAX_TOKENS + promptTokens.length) 0
      { allTokens := promptTokens, generatedTokens := [], position := 0,
        cacheGen := 0, allocated := [TId.mel, TId.encRes] ++ kvIds 0,
        closed := [], caught := none }).allocated := ht
  have hnc2 : t ∉ (runSteps oracle (MAX_TOKENS + promptTokens.length) 0
      { allTokens := promptTokens, generatedTokens := [], position := 0,
        cacheGen := 0, allocated := [TId.mel, TId.encRes] ++ kvIds 0,
        closed := [], caught := none }).closed ++
      kvIds (runSteps oracle (MAX_TOKENS + promptTokens.length) 0
      { allTokens := promptTokens, generatedTokens := [], position := 0,
        cacheGen := 0, allocated := [TId.mel, TId.encRes] ++ kvIds 0,
        closed := [], caught := none }).cacheGen ++ [TId.mel, TId.encRes] := hnc
  have hn3 : t ∉ (runSteps oracle (MAX_TOKENS + promptTokens.length) 0
      { allTokens := promptTokens, generatedTokens := [], position := 0,
        cacheGen := 0, allocated := [TId.mel, TId.encRes] ++ kvIds 0,
        closed := [], caught := none }).closed := fun hc =>
    hnc2 (List.mem_append_left _ (List.mem_append_left _ hc))
  rcases hL t ht2 hn3 with hm | he | hk | hd
  · exact absurd (List.mem_append_right _ (by simp [hm])) hnc2
  · exact absurd (List.mem_append_right _ (by simp [he])) hnc2
  · exact absurd (List.mem_append_left _ (List.mem_append_right _ hk)) hnc2
  · exact hd

/-! ## Claim C3 -/

set_option maxRecDepth 10000 in
/-- Claim C3, as stated, is false on the code: with an oracle that always
selects token 0 (never the end marker), the generated-token collection that
`transcribe` passes to the tokenizer reaches 201 tokens — one more than
`MAX_TOKENS = 200` — and the running token sequence reaches 205 = 4 + 201.
The first generating step is step 3 (the step that feeds the last prompt
token) and the loop runs steps 0..203, giving 201 generating steps. -/
theorem c3_counterexample :
    (transcribe (α := ℤ) (some ()) (some ()) (some ()) (fun _ => .ok [0])).map
        (fun o => (o.generatedTokens.length, o.allTokens.length)) =
      .ok (201, 205) ∧
    MAX_TOKENS < 201 ∧ promptTokens.length + MAX_TOKENS < 205 :=
  ⟨by rfl, by decide, by decide⟩

/-- Amended claim C3: for every oracle behaviour the decode loop terminates
with at most `MAX_TOKENS + 1 = 201` generated tokens (the loop bound
`MAX_TOKENS + promptTokens.size` leaves 201 post-prompt steps, steps 3..203),
and the running token sequence never exceeds the 4-token prompt plus 201. -/
theorem c3_token_budget {α : Type} [LinearOrder α]
    (oracle : ℕ → Except Unit (List α)) :
    ∃ out, transcribe (some ()) (some ()) (some ()) oracle = .ok out ∧
      out.generatedTokens.length ≤ MAX_TOKENS + 1 ∧
      out.allTokens.length ≤ promptTokens.length + (MAX_TOKENS + 1) := by
  refine ⟨_, rfl, ?_, ?_⟩
  all_goals
    have h := runSteps_growth_prompt oracle (MAX_TOKENS + promptTokens.length) 0
      { allTokens := promptTokens, generatedTokens := [], position := 0,
        cacheGen := 0, allocated := [TId.mel, TId.encRes] ++ kvIds 0,
        closed := [], caught := none } (by decide)
    have h4 : promptTokens.length = 4 := rfl
    have hM : MAX_TOKENS = 200 := rfl
  · have hg : (runSteps oracle (MAX_TOKENS + promptTokens.length) 0
        { allTokens := promptTokens, generatedTokens := [], position := 0,
          cacheGen := 0, allocated := [TId.mel, TId.encRes] ++ kvIds 0,
          closed := [], caught := none }).generatedTokens.length ≤
        0 + (MAX_TOKENS + promptTokens.length - (promptTokens.length - 1 - 0)) := h.1
    show (runSteps oracle (MAX_TOKENS + promptTokens.length) 0
        { allTokens := promptTokens, generatedTokens := [], position := 0,
          cacheGen := 0, allocated := [TId.mel, TId.encRes] ++ kvIds 0,
          closed := [], caught := none }).generatedTokens.length ≤ MAX_TOKENS + 1
    omega
  · have ha : (runSteps oracle (MAX_TOKENS + promptTokens.length) 0
        { allTokens := promptTokens, generatedTokens := [], position := 0,
          cacheGen := 0, allocated := [TId.mel, TId.encRes] ++ kvIds 0,
          closed := [], caught := none }).allTokens.length ≤
        promptTokens.length + (MAX_TOKENS + promptTokens.length - (promptTokens.length - 1 - 0)) := by
      have := h.2
      simpa using this
    show (runSteps oracle (MAX_TOKENS + promptTokens.length) 0
        { allTokens := promptTokens, generatedTokens := [], position := 0,
          cacheGen := 0, allocated := [TId.mel, TId.encRes] ++ kvIds 0,
          closed := [], caught := none }).allTokens.length ≤
      promptTokens.length + (MAX_TOKENS + 1)
    omega

/-! ## `mel_spectrogram.cpp`

The file contains two revisions of the JNI entry point
`nativeComputeMelSpectrogram`.  Both share the FFT, the Hann window and the
mel filterbank; they differ in the padding applied before framing:

* revision A pads the (zero-filled/truncated) 480000-sample buffer with
  `PAD = N_FFT/2 = 200` reflected samples on each side and drops the last of
  the 3001 STFT frames;
* revision B pads only on the right with `N_FFT = 400` zeros and computes
  all 3000 frames starting at the raw signal.

The C `float` arithmetic is embedded over `ℝ`. -/

def N_FFT : ℕ := 400
def HOP_LENGTH : ℕ := 160
def CHUNK_LENGTH : ℕ := 30
def N_SAMPLES : ℕ := SAMPLE_RATE * CHUNK_LENGTH  -- 480000
def FFT_SIZE : ℕ := 512
def FFT_OUT : ℕ := N_FFT / 2 + 1  -- 201
def PAD : ℕ := N_FFT / 2  -- 200

/-- An FFT buffer: the `re`/`im` arrays as functions (only indices below
`FFT_SIZE` are ever read or written by the algorithm). -/
abbrev Buf : Type := (ℕ → ℝ) × (ℕ → ℝ)

/-- The j-update of the bit-reversal loop:
`for (; j & bit; bit >>= 1) { j ^= bit; } j ^= bit;`. -/
def brAdvance (j bit : ℕ) : ℕ :=
  if h : j &&& bit ≠ 0 then brAdvance (j ^^^ bit) (bit / 2) else j ^^^ bit
termination_by bit
decreasing_by
  have hb : bit ≠ 0 := by
    intro h0
    rw [h0] at h
    simp at h
  exact Nat.div_lt_self (Nat.pos_of_ne_zero hb) one_lt_two

/-- `std::swap(re[i], re[j]); std::swap(im[i], im[j])`. -/
def bufSwap (b : Buf) (i j : ℕ) : Buf :=
  (Function.update (Function.update b.1 i (b.1 j)) j (b.1 i),
   Function.update (Function.update b.2 i (b.2 j)) j (b.2 i))

/-- One iteration of the bit-reversal loop: update the carried `j`
(starting from `bit = n >> 1`), then `if (i < j) swap`. -/
def brStep (n : ℕ) (st : Buf × ℕ) (i : ℕ) : Buf × ℕ :=
  let j := brAdvance st.2 (n / 2)
  (if i < j then bufSwap st.1 i j else st.1, j)

/-- The bit-reversal permutation pass of `fft` (first loop). -/
def bitrevPass (n : ℕ) (b : Buf) : Buf :=
  ((List.range' 1 (n - 1)).foldl (brStep n) (b, 0)).1

/-- The body of the inner butterfly loop of one Cooley–Tukey stage: the
state carries the buffer and the running twiddle `cur`; the source writes
`re[i+j+len/2]`/`im[i+j+len/2]` from the old `re[i+j]`/`im[i+j]` and then
increments `re[i+j]`/`im[i+j]` in place. -/
noncomputable def butterflyStep (wRe wIm : ℝ) (half iBase : ℕ)
    (st : Buf × ℝ × ℝ) (j : ℕ) : Buf × ℝ × ℝ :=
  let bb := st.1
  let curRe := st.2.1
  let curIm := st.2.2
  let i1 := iBase + j
  let i2 := iBase + j + half
  let tRe := curRe * bb.1 i2 - curIm * bb.2 i2
  let tIm := curRe * bb.2 i2 + curIm * bb.1 i2
  let re1 := Function.update bb.1 i2 (bb.1 i1 - tRe)
  let re2 := Function.update re1 i1 (re1 i1 + tRe)
  let im1 := Function.update bb.2 i2 (bb.2 i1 - tIm)
  let im2 := Function.update im1 i1 (im1 i1 + tIm)
  ((re2, im2), curRe * wRe - curIm * wIm, curRe * wIm + curIm * wRe)

/-- The inner butterfly loop of one stage over the block starting at `iBase`
with half-size `half = len/2`. -/
noncomputable def butterflyPass (wRe wIm : ℝ) (half iBase : ℕ) (b : Buf) : Buf :=
  ((List.range half).foldl (butterflyStep wRe wIm half iBase) (b, 1, 0)).1

/-- One stage `len` of the iterative FFT: blocks at `i = 0, len, 2·len, …`
with twiddle base `w = (cos(−2π/len), sin(−2π/len))`. -/
noncomputable def fftStage (n len : ℕ) (b : Buf) : Buf :=
  let ang : ℝ := -2 * Real.pi / (len : ℝ)
  let wRe := Real.cos ang
  let wIm := Real.sin ang
  (List.range (n / len)).foldl
    (fun bb blk => butterflyPass wRe wIm (len / 2) (blk * len) bb) b

/-- `static void fft(float* re, float* im, int n)`: bit-reversal permutation
followed by the stages `len = 2, 4, …, n` (for the power of two `n = 512`
used by both revisions, that is `Nat.log2 n` stages). -/
noncomputable def fft (n : ℕ) (b : Buf) : Buf :=
  (List.range (Nat.log2 n)).foldl
    (fun bb s => fftStage n (2 ^ (s + 1)) bb) (bitrevPass n b)

/-! ### Generic fold-invariant helpers -/

lemma foldl_preserve {β : Type} {σ : Type} (P : σ → Prop) (f : σ → β → σ) :
    ∀ (l : List β) (s : σ), (∀ s x, P s → P (f s x)) → P s → P (l.foldl f s) := by
  intro l
  induction l with
  | nil => intro s _ h; exact h
  | cons x xs ih => intro s hstep h; exact ih (f s x) hstep (hstep s x h)

lemma foldl_range_ind {σ : Type} (P : ℕ → σ → Prop) (f : σ → ℕ → σ) :
    ∀ (n : ℕ) (s : σ), (∀ j s, j < n → P j s → P (j + 1) (f s j)) → P 0 s →
      P n ((List.range n).foldl f s) := by
  intro n
  induction n with
  | zero => intro s _ h; exact h
  | succ n ih =>
    intro s hstep h
    rw [List.range_succ, List.foldl_append, List.foldl_cons, List.foldl_nil]
    exact hstep n _ (Nat.lt_succ_self n)
      (ih s (fun j s hj hp => hstep j s (Nat.lt_succ_of_lt hj) hp) h)

/-! ### The FFT maps the zero buffer to the zero buffer -/

def ZeroBuf (b : Buf) : Prop := ∀ k, b.1 k = 0 ∧ b.2 k = 0

lemma zeroBuf_swap (b : Buf) (i j : ℕ) (h : ZeroBuf b) : ZeroBuf (bufSwap b i j) := by
  intro k
  unfold bufSwap
  simp only [Function.update_apply]
  constructor <;> split_ifs <;> simp [(h _).1, (h _).2]

lemma zeroBuf_bitrevPass (n : ℕ) (b : Buf) (h : ZeroBuf b) :
    ZeroBuf (bitrevPass n b) := by
  unfold bitrevPass
  refine foldl_preserve (fun st : Buf × ℕ => ZeroBuf st.1) (brStep n)
    (List.range' 1 (n - 1)) (b, 0) ?_ h
  intro st i hst
  unfold brStep
  dsimp only
  split_ifs with hij
  · exact zeroBuf_swap st.1 i _ hst
  · exact hst

lemma zeroBuf_butterflyPass (wRe wIm : ℝ) (half iBase : ℕ) (b : Buf)
    (h : ZeroBuf b) : ZeroBuf (butterflyPass wRe wIm half iBase b) := by
  unfold butterflyPass
  refine foldl_preserve (fun st : Buf × ℝ × ℝ => ZeroBuf st.1)
    (butterflyStep wRe wIm half iBase) (List.range half) (b, 1, 0) ?_ h
  intro st j hst
  unfold butterflyStep
  dsimp only
  intro k
  simp only [Function.update_apply]
  constructor <;> split_ifs <;>
    simp [(hst _).1, (hst _).2]

lemma zeroBuf_fftStage (n len : ℕ) (b : Buf) (h : ZeroBuf b) :
    ZeroBuf (fftStage n len b) := by
  unfold fftStage
  exact foldl_preserve (fun bb : Buf => ZeroBuf bb) _ (List.range (n / len)) b
    (fun bb blk hb => zeroBuf_butterflyPass _ _ _ _ bb hb) h

lemma zeroBuf_fft (n : ℕ) (b : Buf) (h : ZeroBuf b) : ZeroBuf (fft n b) := by
  unfold fft
  exact foldl_preserve (fun bb : Buf => ZeroBuf bb) _ (List.range (Nat.log2 n))
    (bitrevPass n b) (fun bb s hb => zeroBuf_fftStage _ _ bb hb)
    (zeroBuf_bitrevPass n b h)

/-! ### The FFT of a one-hot buffer has unit squared magnitude everywhere

The counterexample input for claim C4 produces, in revision A, a frame that
is a single unit impulse.  Rather than proving full DFT correctness of the
iterative FFT, we track through the algorithm the invariant that the
non-zero mass occupies one aligned block in which every slot has squared
magnitude exactly 1: the bit-reversal pass permutes the one-hot, and each
butterfly stage doubles the block (twiddles have unit modulus). -/

lemma foldl_preserve_mem {β : Type} {σ : Type} (P : σ → Prop) (f : σ → β → σ) :
    ∀ (l : List β) (s : σ), (∀ s x, x ∈ l → P s → P (f s x)) → P s →
      P (l.foldl f s) := by
  intro l
  induction l with
  | nil => intro s _ h; exact h
  | cons x xs ih =>
    intro s hstep h
    exact ih (f s x) (fun s y hy hp => hstep s y (List.mem_cons_of_mem x hy) hp)
      (hstep s x (List.mem_cons_self x xs) h)

/-- A buffer holding the single value `v` at position `p` (zero imaginary
part). -/
def OneHot (b : Buf) (p : ℕ) (v : ℝ) : Prop :=
  (∀ k, b.1 k = if k = p then v else 0) ∧ (∀ k, b.2 k = 0)

lemma xor_lt_512 {x y : ℕ} (hx : x < 512) (hy : y < 512) : x ^^^ y < 512 := by
  have hx9 : x < 2 ^ 9 := by norm_num; exact hx
  have hy9 : y < 2 ^ 9 := by norm_num; exact hy
  have := Nat.xor_lt_two_pow hx9 hy9
  norm_num at this
  exact this

lemma brAdvance_lt : ∀ bit j : ℕ, j < 512 → bit < 512 → brAdvance j bit < 512 := by
  intro bit
  induction bit using Nat.strong_induction_on with
  | _ bit ih =>
    intro j hj hb
    unfold brAdvance
    split_ifs with h
    · have hbne : bit ≠ 0 := by
        intro h0
        rw [h0] at h
        simp at h
      exact ih (bit / 2) (Nat.div_lt_self (Nat.pos_of_ne_zero hbne) one_lt_two)
        (j ^^^ bit) (xor_lt_512 hj hb) (lt_of_le_of_lt (Nat.div_le_self bit 2) hb)
    · exact xor_lt_512 hj hb

lemma oneHot_swap (b : Buf) (p : ℕ) (v : ℝ) (i j : ℕ) (h : OneHot b p v) :
    OneHot (bufSwap b i j) (if p = i then j else if p = j then i else p) v := by
  constructor
  · intro k
    simp only [bufSwap, Function.update_apply, h.1]
    by_cases hpi : p = i <;> by_cases hpj : p = j <;>
      by_cases hkj : k = j <;> by_cases hki : k = i <;>
      simp_all <;>
      first
        | rfl
        | (intros; exfalso; omega)
        | (split_ifs <;> first | rfl | (exfalso; omega))
  · intro k
    simp only [bufSwap, Function.update_apply, h.2]
    split_ifs <;> rfl

lemma bitrevPass_oneHot (b : Buf) (p : ℕ) (v : ℝ) (hb : OneHot b p v)
    (hp : p < 512) : ∃ q, q < 512 ∧ OneHot (bitrevPass 512 b) q v := by
  unfold bitrevPass
  have H := foldl_preserve_mem
    (fun st : Buf × ℕ => (∃ q, q < 512 ∧ OneHot st.1 q v) ∧ st.2 < 512)
    (brStep 512) (List.range' 1 (512 - 1)) (b, 0) ?_ ⟨⟨p, hp, hb⟩, by norm_num⟩
  · exact H.1
  · rintro st i hi ⟨⟨q, hq, hqOne⟩, hj⟩
    have hi512 : i < 512 := by
      have := List.mem_range'_1.mp hi
      omega
    have hj2 : brAdvance st.2 (512 / 2) < 512 :=
      brAdvance_lt (512 / 2) st.2 hj (by norm_num)
    unfold brStep
    dsimp only
    refine ⟨?_, hj2⟩
    split_ifs with hlt
    · refine ⟨if q = i then brAdvance st.2 (512 / 2) else
        if q = brAdvance st.2 (512 / 2) then i else q, ?_, ?_⟩
      · split_ifs <;> omega
      · exact oneHot_swap st.1 q v i _ hqOne
    · exact ⟨q, hq, hqOne⟩

lemma mul_mag (c1 c2 x y : ℝ) :
    (c1 * x - c2 * y) ^ 2 + (c1 * y + c2 * x) ^ 2 =
      (c1 ^ 2 + c2 ^ 2) * (x ^ 2 + y ^ 2) := by ring

/-- Pointwise form of one butterfly (requires the two slots distinct,
`0 < half`). -/
lemma butterflyStep_apply (wRe wIm : ℝ) (half iBase : ℕ) (st : Buf × ℝ × ℝ)
    (j k : ℕ) (hhalf : 0 < half) :
    ((butterflyStep wRe wIm half iBase st j).1.1 k =
      if k = iBase + j then
        st.1.1 (iBase + j) +
          (st.2.1 * st.1.1 (iBase + j + half) - st.2.2 * st.1.2 (iBase + j + half))
      else if k = iBase + j + half then
        st.1.1 (iBase + j) -
          (st.2.1 * st.1.1 (iBase + j + half) - st.2.2 * st.1.2 (iBase + j + half))
      else st.1.1 k) ∧
    ((butterflyStep wRe wIm half iBase st j).1.2 k =
      if k = iBase + j then
        st.1.2 (iBase + j) +
          (st.2.1 * st.1.2 (iBase + j + half) + st.2.2 * st.1.1 (iBase + j + half))
      else if k = iBase + j + half then
        st.1.2 (iBase + j) -
          (st.2.1 * st.1.2 (iBase + j + half) + st.2.2 * st.1.1 (iBase + j + half))
      else st.1.2 k) := by
  have hne : iBase + j ≠ iBase + j + half := by omega
  unfold butterflyStep
  dsimp only
  constructor <;>
  · simp only [Function.update_apply]
    split_ifs <;> simp_all

lemma butterflyStep_cur (wRe wIm : ℝ) (half iBase : ℕ) (st : Buf × ℝ × ℝ)
    (j : ℕ) :
    (butterflyStep wRe wIm half iBase st j).2 =
      (st.2.1 * wRe - st.2.2 * wIm, st.2.1 * wIm + st.2.2 * wRe) := rfl

/-- L1: a block pass only touches the indices of its block. -/
lemma butterflyPass_outside (wRe wIm : ℝ) (half iBase : ℕ) (b : Buf) :
    ∀ k, (k < iBase ∨ iBase + 2 * half ≤ k) →
      (butterflyPass wRe wIm half iBase b).1 k = b.1 k ∧
      (butterflyPass wRe wIm half iBase b).2 k = b.2 k := by
  unfold butterflyPass
  have H := foldl_preserve_mem
    (fun st : Buf × ℝ × ℝ => ∀ k, (k < iBase ∨ iBase + 2 * half ≤ k) →
      st.1.1 k = b.1 k ∧ st.1.2 k = b.2 k)
    (butterflyStep wRe wIm half iBase) (List.range half) (b, 1, 0) ?_
    (fun k _ => ⟨rfl, rfl⟩)
  · exact fun k hk => H k hk
  · intro st j hj hst k hk
    have hjh : j < half := List.mem_range.mp hj
    have h := butterflyStep_apply wRe wIm half iBase st j k (by omega)
    rw [h.1, h.2, if_neg (by omega), if_neg (by omega), if_neg (by omega),
      if_neg (by omega)]
    exact hst k hk

/-- L2: a block pass keeps an all-zero block all-zero. -/
lemma butterflyPass_zeroBlock (wRe wIm : ℝ) (half iBase : ℕ) (b : Buf)
    (hz : ∀ k, iBase ≤ k → k < iBase + 2 * half → b.1 k = 0 ∧ b.2 k = 0) :
    ∀ k, iBase ≤ k → k < iBase + 2 * half →
      (butterflyPass wRe wIm half iBase b).1 k = 0 ∧
      (butterflyPass wRe wIm half iBase b).2 k = 0 := by
  unfold butterflyPass
  have H := foldl_preserve_mem
    (fun st : Buf × ℝ × ℝ => ∀ k, iBase ≤ k → k < iBase + 2 * half →
      st.1.1 k = 0 ∧ st.1.2 k = 0)
    (butterflyStep wRe wIm half iBase) (List.range half) (b, 1, 0) ?_ hz
  · exact H
  · intro st j hj hst k hk1 hk2
    have hjh : j < half := List.mem_range.mp hj
    have h := butterflyStep_apply wRe wIm half iBase st j k (by omega)
    have h1 := (hst (iBase + j) (by omega) (by omega)).1
    have h2 := (hst (iBase + j) (by omega) (by omega)).2
    have h3 := (hst (iBase + j + half) (by omega) (by omega)).1
    have h4 := (hst (iBase + j + half) (by omega) (by omega)).2
    rw [h.1, h.2]
    split_ifs <;> simp_all

/-- L3: mass with unit magnitude in the lower half-block and zeros in the
upper half-block spreads to unit magnitude over the whole block. -/
lemma butterflyPass_lowerMass (wRe wIm : ℝ) (half iBase : ℕ) (b : Buf)
    (hhalf : 0 < half)
    (hlow : ∀ k, iBase ≤ k → k < iBase + half → b.1 k ^ 2 + b.2 k ^ 2 = 1)
    (hhigh : ∀ k, iBase + half ≤ k → k < iBase + 2 * half →
      b.1 k = 0 ∧ b.2 k = 0) :
    ∀ k, iBase ≤ k → k < iBase + 2 * half →
      (butterflyPass wRe wIm half iBase b).1 k ^ 2 +
        (butterflyPass wRe wIm half iBase b).2 k ^ 2 = 1 := by
  unfold butterflyPass
  have H := foldl_range_ind
    (fun j (st : Buf × ℝ × ℝ) =>
      (∀ k, iBase ≤ k → k < iBase + j → st.1.1 k ^ 2 + st.1.2 k ^ 2 = 1) ∧
      (∀ k, iBase + j ≤ k → k < iBase + half →
        st.1.1 k = b.1 k ∧ st.1.2 k = b.2 k) ∧
      (∀ k, iBase + half ≤ k → k < iBase + half + j →
        st.1.1 k ^ 2 + st.1.2 k ^ 2 = 1) ∧
      (∀ k, iBase + half + j ≤ k → k < iBase + 2 * half →
        st.1.1 k = 0 ∧ st.1.2 k = 0))
    (butterflyStep wRe wIm half iBase) half (b, 1, 0) ?_
    ⟨fun k _ hk => by omega, fun k _ _ => ⟨rfl, rfl⟩,
     fun k hk1 hk2 => by omega, fun k hk1 hk2 => hhigh k (by omega) hk2⟩
  · intro k hk1 hk2
    rcases H with ⟨hA, _, hC, _⟩
    by_cases hkl : k < iBase + half
    · exact hA k hk1 hkl
    · exact hC k (by omega) (by omega)
  · rintro j st hj ⟨hA, hB, hC, hD⟩
    have hval1 := (hB (iBase + j) (by omega) (by omega)).1
    have hval2 := (hB (iBase + j) (by omega) (by omega)).2
    have hz1 := (hD (iBase + j + half) (by omega) (by omega)).1
    have hz2 := (hD (iBase + j + half) (by omega) (by omega)).2
    refine ⟨?_, ?_, ?_, ?_⟩
    · intro k hk1 hk2
      have h := butterflyStep_apply wRe wIm half iBase st j k (by omega)
      by_cases hk : k = iBase + j
      · rw [h.1, h.2, if_pos hk, if_pos hk, hz1, hz2, hval1, hval2]
        have := hlow (iBase + j) (by omega) (by omega)
        ring_nf
        ring_nf at this
        linarith
      · rw [h.1, h.2, if_neg hk, if_neg (by omega), if_neg hk, if_neg (by omega)]
        exact hA k hk1 (by omega)
    · intro k hk1 hk2
      have h := butterflyStep_apply wRe wIm half iBase st j k (by omega)
      rw [h.1, h.2, if_neg (by omega), if_neg (by omega), if_neg (by omega),
        if_neg (by omega)]
      exact hB k (by omega) hk2
    · intro k hk1 hk2
      have h := butterflyStep_apply wRe wIm half iBase st j k (by omega)
      by_cases hk : k = iBase + j + half
      · rw [h.1, h.2, if_neg (by omega), if_pos hk, if_neg (by omega), if_pos hk,
          hz1, hz2, hval1, hval2]
        have := hlow (iBase + j) (by omega) (by omega)
        ring_nf
        ring_nf at this
        linarith
      · rw [h.1, h.2, if_neg (by omega), if_neg hk, if_neg (by omega), if_neg hk]
        exact hC k hk1 (by omega)
    · intro k hk1 hk2
      have h := butterflyStep_apply wRe wIm half iBase st j k (by omega)
      rw [h.1, h.2, if_neg (by omega), if_neg (by omega), if_neg (by omega),
        if_neg (by omega)]
      exact hD k (by omega) hk2

/-- L4: mass with unit magnitude in the upper half-block and zeros in the
lower half-block spreads to unit magnitude over the whole block (the running
twiddle has unit modulus because `wRe² + wIm² = 1`). -/
lemma butterflyPass_upperMass (wRe wIm : ℝ) (half iBase : ℕ) (b : Buf)
    (hhalf : 0 < half) (hw : wRe ^ 2 + wIm ^ 2 = 1)
    (hlow : ∀ k, iBase ≤ k → k < iBase + half → b.1 k = 0 ∧ b.2 k = 0)
    (hhigh : ∀ k, iBase + half ≤ k → k < iBase + 2 * half →
      b.1 k ^ 2 + b.2 k ^ 2 = 1) :
    ∀ k, iBase ≤ k → k < iBase + 2 * half →
      (butterflyPass wRe wIm half iBase b).1 k ^ 2 +
        (butterflyPass wRe wIm half iBase b).2 k ^ 2 = 1 := by
  unfold butterflyPass
  have H := foldl_range_ind
    (fun j (st : Buf × ℝ × ℝ) =>
      (st.2.1 ^ 2 + st.2.2 ^ 2 = 1) ∧
      (∀ k, iBase ≤ k → k < iBase + j → st.1.1 k ^ 2 + st.1.2 k ^ 2 = 1) ∧
      (∀ k, iBase + j ≤ k → k < iBase + half →
        st.1.1 k = 0 ∧ st.1.2 k = 0) ∧
      (∀ k, iBase + half ≤ k → k < iBase + half + j →
        st.1.1 k ^ 2 + st.1.2 k ^ 2 = 1) ∧
      (∀ k, iBase + half + j ≤ k → k < iBase + 2 * half →
        st.1.1 k = b.1 k ∧ st.1.2 k = b.2 k))
    (butterflyStep wRe wIm half iBase) half (b, 1, 0) ?_
    ⟨by norm_num,
     fun k _ hk => by omega,
     fun k hk1 hk2 => hlow k (by omega) (by omega),
     fun k hk1 hk2 => by omega,
     fun k _ _ => ⟨rfl, rfl⟩⟩
  · intro k hk1 hk2
    rcases H with ⟨_, hA, _, hC, _⟩
    by_cases hkl : k < iBase + half
    · exact hA k hk1 hkl
    · exact hC k (by omega) (by omega)
  · rintro j st hj ⟨hcur, hA, hB, hC, hD⟩
    have hz1 := (hB (iBase + j) (by omega) (by omega)).1
    have hz2 := (hB (iBase + j) (by omega) (by omega)).2
    have hval1 := (hD (iBase + j + half) (by omega) (by omega)).1
    have hval2 := (hD (iBase + j + half) (by omega) (by omega)).2
    have hmag : st.1.1 (iBase + j + half) ^ 2 + st.1.2 (iBase + j + half) ^ 2 = 1 := by
      rw [hval1, hval2]
      exact hhigh (iBase + j + half) (by omega) (by omega)
    have htmag : (st.2.1 * st.1.1 (iBase + j + half) -
          st.2.2 * st.1.2 (iBase + j + half)) ^ 2 +
        (st.2.1 * st.1.2 (iBase + j + half) +
          st.2.2 * st.1.1 (iBase + j + half)) ^ 2 = 1 := by
      rw [mul_mag, hcur, hmag, one_mul]
    refine ⟨?_, ?_, ?_, ?_, ?_⟩
    · rw [butterflyStep_cur]
      dsimp only
      rw [mul_mag, hcur, hw, one_mul]
    · intro k hk1 hk2
      have h := butterflyStep_apply wRe wIm half iBase st j k (by omega)
      by_cases hk : k = iBase + j
      · rw [h.1, h.2, if_pos hk, if_pos hk, hz1, hz2]
        ring_nf
        ring_nf at htmag
        linarith
      · rw [h.1, h.2, if_neg hk, if_neg (by omega), if_neg hk, if_neg (by omega)]
        exact hA k hk1 (by omega)
    · intro k hk1 hk2
      have h := butterflyStep_apply wRe wIm half iBase st j k (by omega)
      rw [h.1, h.2, if_neg (by omega), if_neg (by omega), if_neg (by omega),
        if_neg (by omega)]
      exact hB k (by omega) hk2
    · intro k hk1 hk2
      have h := butterflyStep_apply wRe wIm half iBase st j k (by omega)
      by_cases hk : k = iBase + j + half
      · rw [h.1, h.2, if_neg (by omega), if_pos hk, if_neg (by omega), if_pos hk,
          hz1, hz2]
        ring_nf
        ring_nf at htmag
        linarith
      · rw [h.1, h.2, if_neg (by omega), if_neg hk, if_neg (by omega), if_neg hk]
        exact hC k hk1 (by omega)
    · intro k hk1 hk2
      have h := butterflyStep_apply wRe wIm half iBase st j k (by omega)
      rw [h.1, h.2, if_neg (by omega), if_neg (by omega), if_neg (by omega),
        if_neg (by omega)]
      exact hD k (by omega) hk2

/-- The invariant carried across FFT stages: the non-zero mass occupies one
aligned block of the given size, every slot of which has squared magnitude
exactly 1. -/
def StageOK (size : ℕ) (b : Buf) : Prop :=
  ∃ B, (B + 1) * size ≤ 512 ∧
    (∀ k, B * size ≤ k → k < B * size + size → b.1 k ^ 2 + b.2 k ^ 2 = 1) ∧
    (∀ k, k < 512 → (k < B * size ∨ B * size + size ≤ k) → b.1 k = 0 ∧ b.2 k = 0)

lemma fftStage_stageOK (half len nblk : ℕ) (hhalf : 0 < half)
    (hlen : len = 2 * half) (hnblk : len * nblk = 512) (b : Buf)
    (h : StageOK half b) : StageOK len (fftStage 512 len b) := by
  obtain ⟨B, hB, hmass, hzero⟩ := h
  have hlenpos : 0 < len := by omega
  have hdiv : 512 / len = nblk := by
    rw [← hnblk, Nat.mul_div_cancel_left _ hlenpos]
  have hl2 : len / 2 = half := by omega
  have hBhalf : (B + 1) * half = B * half + half := by ring
  -- the mass block index at the coarser level
  set Bl := B / 2 with hBldef
  have hBcase : B = 2 * Bl ∨ B = 2 * Bl + 1 := by omega
  have eA : Bl * len = 2 * (Bl * half) := by rw [hlen]; ring
  have eB : B * half = 2 * (Bl * half) ∨ B * half = 2 * (Bl * half) + half := by
    rcases hBcase with hBe | hBo
    · left; rw [hBe]; ring
    · right; rw [hBo]; ring
  unfold fftStage
  rw [hdiv, hl2]
  have hw : Real.cos (-2 * Real.pi / (len : ℝ)) ^ 2 +
      Real.sin (-2 * Real.pi / (len : ℝ)) ^ 2 = 1 :=
    Real.cos_sq_add_sin_sq _
  have H := foldl_range_ind
    (fun t (bb : Buf) =>
      (∀ k, k < 512 → (k < Bl * len ∨ Bl * len + len ≤ k) →
        bb.1 k = 0 ∧ bb.2 k = 0) ∧
      (Bl < t → ∀ k, Bl * len ≤ k → k < Bl * len + len →
        bb.1 k ^ 2 + bb.2 k ^ 2 = 1) ∧
      (t ≤ Bl → ∀ k, Bl * len ≤ k → k < Bl * len + len →
        bb.1 k = b.1 k ∧ bb.2 k = b.2 k))
    (fun bb blk => butterflyPass (Real.cos (-2 * Real.pi / (len : ℝ)))
      (Real.sin (-2 * Real.pi / (len : ℝ))) half (blk * len) bb)
    nblk b ?step ?base
  case base =>
    refine ⟨?_, by omega, fun _ k _ _ => ⟨rfl, rfl⟩⟩
    intro k hk512 hkout
    refine hzero k hk512 ?_
    rcases eB with e | e <;> rw [hBhalf] at hB <;> omega
  case step =>
    rintro t bb ht ⟨hQz, hQm, hQb⟩
    have ht1 : (t + 1) * len ≤ nblk * len := Nat.mul_le_mul_right len (by omega)
    have ht512 : t * len + len ≤ 512 := by
      calc t * len + len = (t + 1) * len := by ring
        _ ≤ nblk * len := ht1
        _ = 512 := by rw [Nat.mul_comm]; exact hnblk
    by_cases htBl : t = Bl
    · -- the block being processed holds the mass half-block
      have hTB : t * len = Bl * len := by rw [htBl]
      have hbbeq := hQb (le_of_eq htBl)
      have h2half : t * len + 2 * half = t * len + len := by omega
      rcases eB with e | e
      · -- mass in the lower half of the block
        have hmagfull := butterflyPass_lowerMass
          (Real.cos (-2 * Real.pi / (len : ℝ)))
          (Real.sin (-2 * Real.pi / (len : ℝ))) half (t * len) bb hhalf
          (fun k hk1 hk2 => by
            have hbk := hbbeq k (by omega) (by omega)
            rw [hbk.1, hbk.2]
            exact hmass k (by omega) (by omega))
          (fun k hk1 hk2 => by
            have hbk := hbbeq k (by omega) (by omega)
            rw [hbk.1, hbk.2]
            exact hzero k (by omega) (by omega))
        refine ⟨?_, ?_, fun hcon => absurd hcon (by omega)⟩
        · intro k hk512 hkout
          have houts := butterflyPass_outside
            (Real.cos (-2 * Real.pi / (len : ℝ)))
            (Real.sin (-2 * Real.pi / (len : ℝ))) half (t * len) bb k (by omega)
          rw [houts.1, houts.2]
          exact hQz k hk512 hkout
        · intro _ k hk1 hk2
          exact hmagfull k (by omega) (by omega)
      · -- mass in the upper half of the block
        have hmagfull := butterflyPass_upperMass
          (Real.cos (-2 * Real.pi / (len : ℝ)))
          (Real.sin (-2 * Real.pi / (len : ℝ))) half (t * len) bb hhalf hw
          (fun k hk1 hk2 => by
            have hbk := hbbeq k (by omega) (by omega)
            rw [hbk.1, hbk.2]
            exact hzero k (by omega) (by omega))
          (fun k hk1 hk2 => by
            have hbk := hbbeq k (by omega) (by omega)
            rw [hbk.1, hbk.2]
            exact hmass k (by omega) (by omega))
        refine ⟨?_, ?_, fun hcon => absurd hcon (by omega)⟩
        · intro k hk512 hkout
          have houts := butterflyPass_outside
            (Real.cos (-2 * Real.pi / (len : ℝ)))
            (Real.sin (-2 * Real.pi / (len : ℝ))) half (t * len) bb k (by omega)
          rw [houts.1, houts.2]
          exact hQz k hk512 hkout
        · intro _ k hk1 hk2
          exact hmagfull k (by omega) (by omega)
    · -- a mass-free block: it is all zero and stays all zero
      have hblocks : t * len + len ≤ Bl * len ∨ Bl * len + len ≤ t * len := by
        rcases Nat.lt_or_ge t Bl with hlt | hge
        · left
          calc t * len + len = (t + 1) * len := by ring
            _ ≤ Bl * len := Nat.mul_le_mul_right len (by omega)
        · right
          have : Bl < t := by omega
          calc Bl * len + len = (Bl + 1) * len := by ring
            _ ≤ t * len := Nat.mul_le_mul_right len (by omega)
      have hzblock := butterflyPass_zeroBlock
        (Real.cos (-2 * Real.pi / (len : ℝ)))
        (Real.sin (-2 * Real.pi / (len : ℝ))) half (t * len) bb
        (fun k hk1 hk2 => hQz k (by omega) (by omega))
      refine ⟨?_, ?_, ?_⟩
      · intro k hk512 hkout
        by_cases hkin : t * len ≤ k ∧ k < t * len + 2 * half
        · exact hzblock k hkin.1 hkin.2
        · have houts := butterflyPass_outside
            (Real.cos (-2 * Real.pi / (len : ℝ)))
            (Real.sin (-2 * Real.pi / (len : ℝ))) half (t * len) bb k (by omega)
          rw [houts.1, houts.2]
          exact hQz k hk512 hkout
      · intro hBlt k hk1 hk2
        have houts := butterflyPass_outside
          (Real.cos (-2 * Real.pi / (len : ℝ)))
          (Real.sin (-2 * Real.pi / (len : ℝ))) half (t * len) bb k (by omega)
        rw [houts.1, houts.2]
        exact hQm (by omega) k hk1 hk2
      · intro hBge k hk1 hk2
        have houts := butterflyPass_outside
          (Real.cos (-2 * Real.pi / (len : ℝ)))
          (Real.sin (-2 * Real.pi / (len : ℝ))) half (t * len) bb k (by omega)
        rw [houts.1, houts.2]
        exact hQb (by omega) k hk1 hk2
  -- conclude: the mass block at the coarser level
  obtain ⟨hZ, hM, _⟩ := H
  have hBlnblk : Bl < nblk := by
    by_contra hcon
    have : nblk * len ≤ Bl * len := Nat.mul_le_mul_right len (by omega)
    rw [Nat.mul_comm] at hnblk
    rcases eB with e | e <;> rw [hBhalf] at hB <;> omega
  refine ⟨Bl, ?_, ?_, ?_⟩
  · calc (Bl + 1) * len ≤ nblk * len := Nat.mul_le_mul_right len (by omega)
      _ = 512 := by rw [Nat.mul_comm]; exact hnblk
  · intro k hk1 hk2
    exact hM hBlnblk k (by omega) (by omega)
  · intro k hk512 hkout
    exact hZ k hk512 (by omega)

/-- The FFT of a one-hot buffer of value `±1` has squared magnitude exactly 1
in every slot below `FFT_SIZE = 512`. -/
lemma fft_oneHot_unitMag (b : Buf) (p : ℕ) (v : ℝ) (hb : OneHot b p v)
    (hp : p < 512) (hv : v ^ 2 = 1) :
    ∀ k, k < 512 → (fft 512 b).1 k ^ 2 + (fft 512 b).2 k ^ 2 = 1 := by
  unfold fft
  rw [show Nat.log2 512 = 9 by
    rw [Nat.log2_eq_log_two]
    rw [show (512 : ℕ) = 2 ^ 9 by norm_num, Nat.log_pow (by norm_num)]]
  obtain ⟨q, hq, hqOne⟩ := bitrevPass_oneHot b p v hb hp
  have base : StageOK (2 ^ 0) (bitrevPass 512 b) := by
    refine ⟨q, by omega, ?_, ?_⟩
    · intro k hk1 hk2
      have hkq : k = q := by omega
      rw [hkq, hqOne.1 q, hqOne.2 q, if_pos rfl]
      simpa using hv
    · intro k _ hkout
      have hkq : k ≠ q := by omega
      rw [hqOne.1 k, hqOne.2 k, if_neg hkq]
      exact ⟨rfl, rfl⟩
  have H := foldl_range_ind (fun s bb => StageOK (2 ^ s) bb)
    (fun bb s => fftStage 512 (2 ^ (s + 1)) bb) 9 (bitrevPass 512 b)
    (fun s bb hs hP => by
      have h2 : (2 : ℕ) ^ (s + 1) = 2 * 2 ^ s := by rw [pow_succ]; ring
      have hnb : (2 : ℕ) ^ (s + 1) * 2 ^ (8 - s) = 512 := by
        rw [← pow_add]
        have : s + 1 + (8 - s) = 9 := by omega
        rw [this]
        norm_num
      exact fftStage_stageOK (2 ^ s) (2 ^ (s + 1)) (2 ^ (8 - s))
        (Nat.pos_pow_of_pos s (by norm_num)) h2 hnb bb hP)
    base
  obtain ⟨B, hB, hmass, _⟩ := H
  have hB0 : B = 0 := by
    have h512 : (2 : ℕ) ^ 9 = 512 := by norm_num
    rw [h512] at hB
    omega
  intro k hk
  subst hB0
  have h512 : (2 : ℕ) ^ 9 = 512 := by norm_num
  rw [h512] at hmass
  exact hmass k (by omega) (by omega)

/-! ### Mel filterbank, Hann window, padding and framing -/

noncomputable def hzToMel (hz : ℝ) : ℝ := 2595 * Real.logb 10 (1 + hz / 700)

noncomputable def melToHz (mel : ℝ) : ℝ := 700 * ((10 : ℝ) ^ (mel / 2595) - 1)

/-- `fMax = sampleRate / 2 = 8000`. -/
noncomputable def fMax : ℝ := (16000 : ℝ) / 2

noncomputable def melMinF : ℝ := hzToMel 0

noncomputable def melMaxF : ℝ := hzToMel fMax

/-- `melPoints[i] = melMin + (melMax - melMin) * i / (nMels + 1)`. -/
noncomputable def melPoint (i : ℕ) : ℝ :=
  melMinF + (melMaxF - melMinF) * i / (128 + 1)

/-- `binFreqs[i] = melToHz(melPoints[i]) * nFft / sampleRate`. -/
noncomputable def binFreq (i : ℕ) : ℝ := melToHz (melPoint i) * 400 / 16000

/-- The un-normalized triangular filter weight of mel row `m` at FFT bin
`k` (`computeMelFilterbank`, triangle phase). -/
noncomputable def filterRaw (m k : ℕ) : ℝ :=
  if (k : ℝ) ≥ binFreq m ∧ (k : ℝ) ≤ binFreq (m + 1) ∧ binFreq (m + 1) > binFreq m
  then ((k : ℝ) - binFreq m) / (binFreq (m + 1) - binFreq m)
  else if (k : ℝ) > binFreq (m + 1) ∧ (k : ℝ) ≤ binFreq (m + 2) ∧
      binFreq (m + 2) > binFreq (m + 1)
  then (binFreq (m + 2) - (k : ℝ)) / (binFreq (m + 2) - binFreq (m + 1))
  else 0

/-- Slaney normalization `enorm = 2.0 / (rightHz - leftHz)`. -/
noncomputable def enorm (m : ℕ) : ℝ :=
  2 / (melToHz (melPoint (m + 2)) - melToHz (melPoint m))

noncomputable def melFilter (m k : ℕ) : ℝ := filterRaw m k * enorm m

/-- Periodic Hann window `0.5 * (1 - cos(2π i / N))`, `N = N_FFT = 400`. -/
noncomputable def hannWindow (i : ℕ) : ℝ :=
  0.5 * (1 - Real.cos (2 * Real.pi * i / 400))

/-- Step 1 of revision A: zero-fill/truncate the input to `N_SAMPLES`. -/
noncomputable def rawOf (audio : List ℝ) (i : ℕ) : ℝ :=
  if i < N_SAMPLES then audio.getD i 0 else 0

/-- Revision A, step 2: centre padding with reflection —
`padded[PAD-1-i] = raw[i+1]`, then the raw buffer, then
`padded[N_SAMPLES+PAD+i] = raw[N_SAMPLES-2-i]`. -/
noncomputable def paddedA (audio : List ℝ) (p : ℕ) : ℝ :=
  if p < PAD then rawOf audio (PAD - p)
  else if p < N_SAMPLES + PAD then rawOf audio (p - PAD)
  else if p < N_SAMPLES + 2 * PAD then
    rawOf audio (N_SAMPLES - 2 - (p - (N_SAMPLES + PAD)))
  else 0

/-- Revision B: copy `min(audioLen, N_SAMPLES)` samples into a
`N_SAMPLES + N_FFT` zero buffer (right zero padding only). -/
noncomputable def paddedB (audio : List ℝ) (p : ℕ) : ℝ :=
  if p < N_SAMPLES then audio.getD p 0 else 0

/-- The FFT input buffer of frame `f` (zero-filled to `FFT_SIZE`; the first
`N_FFT` slots are the Hann-windowed padded signal starting at
`f * HOP_LENGTH`). -/
noncomputable def frameBufA (audio : List ℝ) (f : ℕ) : Buf :=
  (fun i => if i < N_FFT then paddedA audio (f * HOP_LENGTH + i) * hannWindow i
    else 0,
   fun _ => 0)

noncomputable def frameBufB (audio : List ℝ) (f : ℕ) : Buf :=
  (fun i => if i < N_FFT then paddedB audio (f * HOP_LENGTH + i) * hannWindow i
    else 0,
   fun _ => 0)

/-- Power spectrum `re[k]² + im[k]²` of frame `f`. -/
noncomputable def magA (audio : List ℝ) (f k : ℕ) : ℝ :=
  (fft FFT_SIZE (frameBufA audio f)).1 k ^ 2 +
    (fft FFT_SIZE (frameBufA audio f)).2 k ^ 2

noncomputable def magB (audio : List ℝ) (f k : ℕ) : ℝ :=
  (fft FFT_SIZE (frameBufB audio f)).1 k ^ 2 +
    (fft FFT_SIZE (frameBufB audio f)).2 k ^ 2

/-- Mel energy `sum += melFilters[m*FFT_OUT+k] * magnitudes[k]`. -/
noncomputable def energyA (audio : List ℝ) (m f : ℕ) : ℝ :=
  ∑ k ∈ Finset.range FFT_OUT, melFilter m k * magA audio f k

noncomputable def energyB (audio : List ℝ) (m f : ℕ) : ℝ :=
  ∑ k ∈ Finset.range FFT_OUT, melFilter m k * magB audio f k

/-- Revision A: `totalFrames = (paddedLen - N_FFT) / HOP_LENGTH + 1 = 3001`,
`outputFrames = min(totalFrames - 1, N_FRAMES) = 3000` (Whisper drops the
last frame). -/
def totalFramesA : ℕ := (N_SAMPLES + 2 * PAD - N_FFT) / HOP_LENGTH + 1

def outputFramesA : ℕ := min (totalFramesA - 1) N_FRAMES

/-- The melSpec matrix of revision A before normalization, flattened as
`melSpec[m * N_FRAMES + frame]` (frames at or beyond `outputFrames` keep the
initial 0.0). -/
noncomputable def rawMelA (audio : List ℝ) (idx : ℕ) : ℝ :=
  if idx % N_FRAMES < outputFramesA then
    Real.logb 10 (max (energyA audio (idx / N_FRAMES) (idx % N_FRAMES)) 1e-10)
  else 0

/-- Revision B computes all `N_FRAMES` frames. -/
noncomputable def rawMelB (audio : List ℝ) (idx : ℕ) : ℝ :=
  Real.logb 10 (max (energyB audio (idx / N_FRAMES) (idx % N_FRAMES)) 1e-10)

lemma melIdx_nonempty : (Finset.range (N_MELS * N_FRAMES)).Nonempty :=
  Finset.nonempty_range_iff.mpr (by norm_num [N_MELS, N_FRAMES])

/-- `maxVal = *std::max_element(melSpec.begin(), melSpec.end())`. -/
noncomputable def maxValA (audio : List ℝ) : ℝ :=
  (Finset.range (N_MELS * N_FRAMES)).sup' melIdx_nonempty (rawMelA audio)

noncomputable def maxValB (audio : List ℝ) : ℝ :=
  (Finset.range (N_MELS * N_FRAMES)).sup' melIdx_nonempty (rawMelB audio)

/-- Normalization: clamp to `maxVal - 8.0`, then `(x + 4.0) / 4.0`. -/
noncomputable def melOutA (audio : List ℝ) (idx : ℕ) : ℝ :=
  (max (rawMelA audio idx) (maxValA audio - 8) + 4) / 4

noncomputable def melOutB (audio : List ℝ) (idx : ℕ) : ℝ :=
  (max (rawMelB audio idx) (maxValB audio - 8) + 4) / 4

/-- The returned `N_MELS * N_FRAMES` float array. -/
noncomputable def melListA (audio : List ℝ) : List ℝ :=
  (List.range (N_MELS * N_FRAMES)).map (melOutA audio)

noncomputable def melListB (audio : List ℝ) : List ℝ :=
  (List.range (N_MELS * N_FRAMES)).map (melOutB audio)

/-! ## Claim C6 -/

/-- Claim C6: for every 16kHz mono float clip of at most 480000 samples, the
mel computation returns exactly `N_MELS * N_FRAMES = 128·3000` values, each
bounded by `(M-4)/4` and `(M+4)/4` where `M` is the pre-normalization global
maximum, so the spread of the output values is at most 2. -/
theorem c6_shape_and_range (audio : List ℝ) (haudio : audio.length ≤ N_SAMPLES) :
    (melListA audio).length = N_MELS * N_FRAMES ∧
    (∀ v ∈ melListA audio,
      (maxValA audio - 4) / 4 ≤ v ∧ v ≤ (maxValA audio + 4) / 4) ∧
    (∀ u ∈ melListA audio, ∀ v ∈ melListA audio, u - v ≤ 2) := by
  have hbound : ∀ v ∈ melListA audio,
      (maxValA audio - 4) / 4 ≤ v ∧ v ≤ (maxValA audio + 4) / 4 := by
    intro v hv
    simp only [melListA, List.mem_map, List.mem_range] at hv
    obtain ⟨idx, hidx, hveq⟩ := hv
    subst hveq
    have hle : rawMelA audio idx ≤ maxValA audio :=
      Finset.le_sup' (rawMelA audio) (Finset.mem_range.mpr hidx)
    constructor
    · have h1 : maxValA audio - 8 ≤ max (rawMelA audio idx) (maxValA audio - 8) :=
        le_max_right _ _
      unfold melOutA
      linarith
    · have h2 : max (rawMelA audio idx) (maxValA audio - 8) ≤ maxValA audio :=
        max_le hle (by linarith)
      unfold melOutA
      linarith
  refine ⟨by simp [melListA], hbound, ?_⟩
  intro u hu v hv
  have h1 := hbound u hu
  have h2 := hbound v hv
  linarith

/-- Witness for `c6_shape_and_range` at the empty clip. -/
theorem c6_shape_and_range_witness :
    ([] : List ℝ).length ≤ N_SAMPLES ∧
    ((melListA []).length = N_MELS * N_FRAMES ∧
      (∀ v ∈ melListA [],
        (maxValA [] - 4) / 4 ≤ v ∧ v ≤ (maxValA [] + 4) / 4) ∧
      (∀ u ∈ melListA [], ∀ v ∈ melListA [], u - v ≤ 2)) :=
  ⟨by simp [N_SAMPLES, SAMPLE_RATE, CHUNK_LENGTH],
   c6_shape_and_range [] (by simp [N_SAMPLES, SAMPLE_RATE, CHUNK_LENGTH])⟩

/-! ## Claim C5 -/

lemma energyA_of_zero_frame (audio : List ℝ) (m f : ℕ)
    (h : ZeroBuf (frameBufA audio f)) : energyA audio m f = 0 := by
  have hz := zeroBuf_fft FFT_SIZE _ h
  unfold energyA
  refine Finset.sum_eq_zero ?_
  intro k _
  unfold magA
  rw [(hz k).1, (hz k).2]
  ring

lemma energyB_of_zero_frame (audio : List ℝ) (m f : ℕ)
    (h : ZeroBuf (frameBufB audio f)) : energyB audio m f = 0 := by
  have hz := zeroBuf_fft FFT_SIZE _ h
  unfold energyB
  refine Finset.sum_eq_zero ?_
  intro k _
  unfold magB
  rw [(hz k).1, (hz k).2]
  ring

/-- `log10(fmax(0, 1e-10)) = log10(1e-10) = -10`. -/
lemma logb_floor_val : Real.logb 10 (max (0 : ℝ) 1e-10) = -10 := by
  rw [max_eq_right (by norm_num : (0 : ℝ) ≤ 1e-10)]
  have h : (1e-10 : ℝ) = ((10 : ℝ) ^ (10 : ℕ))⁻¹ := by norm_num
  rw [h, Real.logb_inv, Real.logb_pow, Real.logb_self_eq_one (by norm_num)]
  norm_num

lemma outputFramesA_eq : outputFramesA = N_FRAMES := by
  norm_num [outputFramesA, totalFramesA, N_SAMPLES, PAD, N_FFT, HOP_LENGTH,
    N_FRAMES, SAMPLE_RATE, CHUNK_LENGTH]

lemma rawMelA_floor (audio : List ℝ)
    (hframes : ∀ f, f < N_FRAMES → ZeroBuf (frameBufA audio f)) (idx : ℕ) :
    rawMelA audio idx = -10 := by
  have hmod : idx % N_FRAMES < N_FRAMES :=
    Nat.mod_lt idx (by norm_num [N_FRAMES])
  unfold rawMelA
  rw [if_pos (by rw [outputFramesA_eq]; exact hmod),
    energyA_of_zero_frame audio _ _ (hframes _ hmod)]
  exact logb_floor_val

lemma rawMelB_floor (audio : List ℝ)
    (hframes : ∀ f, f < N_FRAMES → ZeroBuf (frameBufB audio f)) (idx : ℕ) :
    rawMelB audio idx = -10 := by
  have hmod : idx % N_FRAMES < N_FRAMES :=
    Nat.mod_lt idx (by norm_num [N_FRAMES])
  unfold rawMelB
  rw [energyB_of_zero_frame audio _ _ (hframes _ hmod)]
  exact logb_floor_val

lemma melListA_floor (audio : List ℝ)
    (hframes : ∀ f, f < N_FRAMES → ZeroBuf (frameBufA audio f)) :
    melListA audio = List.replicate (N_MELS * N_FRAMES) (-1.5 : ℝ) := by
  have hmax : maxValA audio = -10 := by
    unfold maxValA
    rw [Finset.sup'_congr melIdx_nonempty rfl
      (fun idx _ => rawMelA_floor audio hframes idx)]
    exact Finset.sup'_const _ _
  have hout : ∀ idx : ℕ, melOutA audio idx = -1.5 := by
    intro idx
    unfold melOutA
    rw [rawMelA_floor audio hframes idx, hmax,
      max_eq_left (by norm_num : (-10 : ℝ) - 8 ≤ -10)]
    norm_num
  unfold melListA
  rw [List.eq_replicate_iff]
  refine ⟨by simp, ?_⟩
  intro b hb
  simp only [List.mem_map, List.mem_range] at hb
  obtain ⟨idx, _, hidx⟩ := hb
  rw [← hidx, hout]

lemma melListB_floor (audio : List ℝ)
    (hframes : ∀ f, f < N_FRAMES → ZeroBuf (frameBufB audio f)) :
    melListB audio = List.replicate (N_MELS * N_FRAMES) (-1.5 : ℝ) := by
  have hmax : maxValB audio = -10 := by
    unfold maxValB
    rw [Finset.sup'_congr melIdx_nonempty rfl
      (fun idx _ => rawMelB_floor audio hframes idx)]
    exact Finset.sup'_const _ _
  have hout : ∀ idx : ℕ, melOutB audio idx = -1.5 := by
    intro idx
    unfold melOutB
    rw [rawMelB_floor audio hframes idx, hmax,
      max_eq_left (by norm_num : (-10 : ℝ) - 8 ≤ -10)]
    norm_num
  unfold melListB
  rw [List.eq_replicate_iff]
  refine ⟨by simp, ?_⟩
  intro b hb
  simp only [List.mem_map, List.mem_range] at hb
  obtain ⟨idx, _, hidx⟩ := hb
  rw [← hidx, hout]

lemma getD_replicate_zero (n i : ℕ) : (List.replicate n (0 : ℝ)).getD i 0 = 0 := by
  by_cases h : i < n
  · rw [List.getD_eq_getElem _ _ (by simpa using h)]
    simp
  · rw [List.getD_eq_default _ _ (by simpa using h)]

lemma rawOf_silence (i : ℕ) : rawOf (List.replicate N_SAMPLES (0 : ℝ)) i = 0 := by
  unfold rawOf
  split_ifs
  · exact getD_replicate_zero _ _
  · rfl

/-- Claim C5: the all-zero clip of full length 480000 yields, in both
revisions, the constant matrix: every mel energy clamps to the `1e-10`
floor, `log10` gives `-10` everywhere, the global maximum is `-10`, the
`max(·, max-8)` clamp is a no-op, and `(x+4)/4` maps every entry to
`-1.5`. -/
theorem c5_silence_constant :
    melListA (List.replicate N_SAMPLES (0 : ℝ)) =
      List.replicate (N_MELS * N_FRAMES) (-1.5 : ℝ) ∧
    melListB (List.replicate N_SAMPLES (0 : ℝ)) =
      List.replicate (N_MELS * N_FRAMES) (-1.5 : ℝ) := by
  constructor
  · refine melListA_floor _ ?_
    intro f _
    intro k
    refine ⟨?_, rfl⟩
    show (if k < N_FFT then paddedA _ (f * HOP_LENGTH + k) * hannWindow k else 0) = 0
    split_ifs
    · unfold paddedA
      split_ifs <;> simp [rawOf_silence]
    · rfl
  · refine melListB_floor _ ?_
    intro f _
    intro k
    refine ⟨?_, rfl⟩
    show (if k < N_FFT then paddedB _ (f * HOP_LENGTH + k) * hannWindow k else 0) = 0
    split_ifs
    · unfold paddedB
      split_ifs
      · rw [getD_replicate_zero]
        ring
      · ring
    · rfl

/-! ## Claim C4

The two revisions are not extensionally equal.  Witness input: the
one-sample clip `[1]`.  Revision B windows the impulse at offset 0, where
the periodic Hann window vanishes, so every frame is the zero vector and the
output is the constant silence matrix.  Revision A's reflection padding
shifts the impulse to padded position `PAD = 200`, where the Hann window is
exactly 1; frame 0 is then a unit impulse whose FFT has unit power in every
bin, and mel filter 127 collects enough of it to beat the `1e-10` floor, so
revision A's output exceeds `-1.5` somewhere. -/

lemma melMinF_eq : melMinF = 0 := by
  unfold melMinF hzToMel
  norm_num

lemma melMaxF_eq : melMaxF = 2595 * Real.logb 10 (87 / 7) := by
  unfold melMaxF hzToMel fMax
  norm_num

lemma melToHz_point (i : ℕ) :
    melToHz (melPoint i) = 700 * (((87 : ℝ) / 7) ^ ((i : ℝ) / 129) - 1) := by
  unfold melToHz melPoint
  rw [melMinF_eq, melMaxF_eq]
  have hexp : (0 + (2595 * Real.logb 10 (87 / 7) - 0) * (i : ℝ) / (128 + 1)) / 2595 =
      Real.logb 10 (87 / 7) * ((i : ℝ) / 129) := by
    field_simp
    ring
  rw [hexp, Real.rpow_mul (by norm_num : (0 : ℝ) ≤ 10),
    Real.rpow_logb (by norm_num) (by norm_num) (by norm_num)]

lemma rpow_frac_ge_one (i : ℕ) : 1 ≤ ((87 : ℝ) / 7) ^ ((i : ℝ) / 129) := by
  have h := Real.rpow_le_rpow_of_exponent_le
    (by norm_num : (1 : ℝ) ≤ 87 / 7)
    (by positivity : (0 : ℝ) ≤ (i : ℝ) / 129)
  simpa [Real.rpow_zero] using h

lemma rpow_frac_lt_base (i : ℕ) (hi : i < 129) :
    ((87 : ℝ) / 7) ^ ((i : ℝ) / 129) < 87 / 7 := by
  have h := Real.rpow_lt_rpow_of_exponent_lt
    (by norm_num : (1 : ℝ) < 87 / 7)
    (show (i : ℝ) / 129 < 1 by
      rw [div_lt_one (by norm_num)]
      exact_mod_cast hi)
  simpa [Real.rpow_one] using h

/-- The key numeric bound: `(87/7)^(128/129) < 433/35`, i.e. the centre of
mel filter 127 lies strictly below FFT bin 199. -/
lemma rpow_128_129_lt : ((87 : ℝ) / 7) ^ ((128 : ℝ) / 129) < 433 / 35 := by
  have hA0 : (0 : ℝ) ≤ ((87 : ℝ) / 7) ^ ((128 : ℝ) / 129) :=
    le_trans (by norm_num) (rpow_frac_ge_one 128)
  refine lt_of_pow_lt_pow_left₀ 129 (by norm_num) ?_
  have h129 : (((87 : ℝ) / 7) ^ ((128 : ℝ) / 129)) ^ (129 : ℕ) =
      ((87 : ℝ) / 7) ^ (128 : ℕ) := by
    rw [← Real.rpow_natCast (((87 : ℝ) / 7) ^ ((128 : ℝ) / 129)) 129,
      ← Real.rpow_mul (by norm_num : (0 : ℝ) ≤ 87 / 7)]
    norm_num
  rw [h129]
  norm_num

lemma binFreq_129 : binFreq 129 = 200 := by
  unfold binFreq
  rw [melToHz_point]
  norm_num

lemma binFreq_128_lt : binFreq 128 < 199 := by
  unfold binFreq
  rw [melToHz_point]
  have h := rpow_128_129_lt
  push_cast
  nlinarith [h]

lemma binFreq_128_nonneg : 0 ≤ binFreq 128 := by
  unfold binFreq
  rw [melToHz_point]
  have h := rpow_frac_ge_one 128
  push_cast
  nlinarith [h]

lemma melToHz_127_lt : melToHz (melPoint 127) < 8000 := by
  rw [melToHz_point]
  have h := rpow_frac_lt_base 127 (by norm_num)
  push_cast
  nlinarith [h]

lemma melToHz_127_nonneg : 0 ≤ melToHz (melPoint 127) := by
  rw [melToHz_point]
  have h := rpow_frac_ge_one 127
  push_cast
  nlinarith [h]

lemma melToHz_129_eq : melToHz (melPoint 129) = 8000 := by
  rw [melToHz_point]
  norm_num

lemma enorm_127_lb : 1 / 4000 ≤ enorm 127 ∧ 0 < enorm 127 := by
  unfold enorm
  rw [melToHz_129_eq]
  have h1 := melToHz_127_lt
  have h2 := melToHz_127_nonneg
  have hden : 8000 - melToHz (melPoint 127) ≤ 8000 := by linarith
  have hpos : 0 < 8000 - melToHz (melPoint 127) := by linarith
  constructor
  · calc (1 : ℝ) / 4000 = 2 / 8000 := by norm_num
      _ ≤ 2 / (8000 - melToHz (melPoint 127)) :=
          div_le_div_of_nonneg_left (by norm_num) hpos hden
  · exact div_pos (by norm_num) hpos

lemma filterRaw_127_199 : 1 / 200 ≤ filterRaw 127 199 := by
  have hc := binFreq_128_lt
  have hc0 := binFreq_128_nonneg
  unfold filterRaw
  split_ifs with h1 h2
  · exfalso
    push_cast at h1
    linarith [h1.2.1]
  · push_cast at h2 ⊢
    rw [binFreq_129] at h2 ⊢
    have hpos : 0 < 200 - binFreq 128 := by linarith
    have hle : 200 - binFreq 128 ≤ 200 := by linarith
    calc (1 : ℝ) / 200 ≤ 1 / (200 - binFreq 128) :=
          div_le_div_of_nonneg_left (by norm_num) hpos hle
      _ = (200 - 199) / (200 - binFreq 128) := by norm_num
  · exfalso
    apply h2
    push_cast
    rw [binFreq_129]
    exact ⟨by linarith, by norm_num, by linarith⟩

lemma filterRaw_127_nonneg (k : ℕ) : 0 ≤ filterRaw 127 k := by
  unfold filterRaw
  split_ifs with h1 h2
  · apply div_nonneg <;> linarith [h1.1, h1.2.2]
  · apply div_nonneg <;> linarith [h2.1, h2.2.1, h2.2.2]
  · exact le_refl 0

lemma melFilter_127_nonneg (k : ℕ) : 0 ≤ melFilter 127 k :=
  mul_nonneg (filterRaw_127_nonneg k) (le_of_lt (enorm_127_lb).2)

lemma melFilter_127_199 : 1 / 800000 ≤ melFilter 127 199 := by
  have h1 := filterRaw_127_199
  have h2 := enorm_127_lb
  unfold melFilter
  calc (1 : ℝ) / 800000 = (1 / 200) * (1 / 4000) := by norm_num
    _ ≤ filterRaw 127 199 * enorm 127 :=
        mul_le_mul h1 h2.1 (by norm_num) (le_trans (by norm_num) h1)

lemma hannWindow_0 : hannWindow 0 = 0 := by
  unfold hannWindow
  push_cast
  norm_num

lemma hannWindow_200 : hannWindow 200 = 1 := by
  unfold hannWindow
  have h : 2 * Real.pi * ((200 : ℕ) : ℝ) / 400 = Real.pi := by
    push_cast
    ring
  rw [h, Real.cos_pi]
  norm_num

lemma paddedA_one (p : ℕ) :
    paddedA [(1 : ℝ)] p = if p = 200 then 1 else 0 := by
  have hPAD : PAD = 200 := rfl
  have hNS : N_SAMPLES = 480000 := rfl
  unfold paddedA rawOf
  rw [hPAD, hNS]
  by_cases h1 : p < 200
  · rw [if_pos h1, if_neg (by omega : ¬ p = 200),
      if_pos (by omega : 200 - p < 480000)]
    exact List.getD_eq_default _ _ (by simp; omega)
  · rw [if_neg h1]
    by_cases h2 : p < 480000 + 200
    · rw [if_pos h2]
      by_cases h3 : p = 200
      · subst h3
        norm_num
      · rw [if_neg h3, if_pos (by omega : p - 200 < 480000)]
        exact List.getD_eq_default _ _ (by simp; omega)
    · rw [if_neg h2]
      by_cases h4 : p < 480000 + 2 * 200
      · rw [if_pos h4, if_neg (by omega : ¬ p = 200),
          if_pos (by omega : 480000 - 2 - (p - (480000 + 200)) < 480000)]
        exact List.getD_eq_default _ _ (by simp; omega)
      · rw [if_neg h4, if_neg (by omega : ¬ p = 200)]

/-- Frame 0 of revision A on the clip `[1]` is the unit impulse at offset
200 (reflection padding shifts sample 0 to padded position `PAD`, where the
periodic Hann window equals 1). -/
lemma frameA_one_onehot : OneHot (frameBufA [(1 : ℝ)] 0) 200 1 := by
  constructor
  · intro k
    show (if k < N_FFT then
        paddedA [(1 : ℝ)] (0 * HOP_LENGTH + k) * hannWindow k else 0) =
      if k = 200 then 1 else 0
    have hN : N_FFT = 400 := rfl
    have hidx : 0 * HOP_LENGTH + k = k := by simp
    rw [hN, hidx]
    by_cases hk : k < 400
    · rw [if_pos hk, paddedA_one]
      by_cases h200 : k = 200
      · subst h200
        simp [hannWindow_200]
      · rw [if_neg h200]
        ring
    · rw [if_neg hk, if_neg (by omega)]
  · intro k
    rfl

/-- Every frame of revision B on the clip `[1]` is the zero vector: sample 0
appears only at window offset 0 of frame 0, where the periodic Hann window
vanishes. -/
lemma frameB_one_zero (f : ℕ) : ZeroBuf (frameBufB [(1 : ℝ)] f) := by
  intro k
  refine ⟨?_, rfl⟩
  show (if k < N_FFT then
      paddedB [(1 : ℝ)] (f * HOP_LENGTH + k) * hannWindow k else 0) = 0
  split_ifs with hk
  · have hH : HOP_LENGTH = 160 := rfl
    by_cases hz : f * HOP_LENGTH + k = 0
    · rw [hH] at hz
      have hk0 : k = 0 := by omega
      rw [hk0, hannWindow_0]
      ring
    · have hpz : paddedB [(1 : ℝ)] (f * HOP_LENGTH + k) = 0 := by
        unfold paddedB
        split_ifs with h
        · exact List.getD_eq_default _ _ (by simp; omega)
        · rfl
      rw [hpz]
      ring
  · rfl

lemma logb_1e10 : Real.logb 10 ((1e-10 : ℝ)) = -10 := by
  have h : (1e-10 : ℝ) = ((10 : ℝ) ^ (10 : ℕ))⁻¹ := by norm_num
  rw [h, Real.logb_inv, Real.logb_pow, Real.logb_self_eq_one (by norm_num)]
  norm_num

lemma magA_one (k : ℕ) (hk : k < 512) : magA [(1 : ℝ)] 0 k = 1 := by
  have h := fft_oneHot_unitMag (frameBufA [(1 : ℝ)] 0) 200 1 frameA_one_onehot
    (by norm_num) (by norm_num) k hk
  unfold magA
  rw [show FFT_SIZE = 512 from rfl]
  exact h

lemma magA_one_nonneg (f k : ℕ) (audio : List ℝ) : 0 ≤ magA audio f k := by
  unfold magA
  positivity

lemma energyA_one_lb : (1e-10 : ℝ) < energyA [(1 : ℝ)] 127 0 := by
  have hsum : melFilter 127 199 * magA [(1 : ℝ)] 0 199 ≤ energyA [(1 : ℝ)] 127 0 := by
    unfold energyA
    have h0 : ∀ i ∈ Finset.range FFT_OUT,
        0 ≤ melFilter 127 i * magA [(1 : ℝ)] 0 i := by
      intro i _
      exact mul_nonneg (melFilter_127_nonneg i) (magA_one_nonneg 0 i _)
    exact @Finset.single_le_sum ℕ ℝ _
      (fun k => melFilter 127 k * magA [(1 : ℝ)] 0 k) (Finset.range FFT_OUT)
      h0 199 (Finset.mem_range.mpr (show 199 < FFT_OUT by norm_num [FFT_OUT, N_FFT]))
  rw [magA_one 199 (by norm_num), mul_one] at hsum
  calc (1e-10 : ℝ) < 1 / 800000 := by norm_num
    _ ≤ melFilter 127 199 := melFilter_127_199
    _ ≤ energyA [(1 : ℝ)] 127 0 := hsum

lemma rawMelA_one_381000 : -10 < rawMelA [(1 : ℝ)] 381000 := by
  unfold rawMelA
  have hm : (381000 : ℕ) % N_FRAMES = 0 := by norm_num [N_FRAMES]
  have hd : (381000 : ℕ) / N_FRAMES = 127 := by norm_num [N_FRAMES]
  rw [hm, hd, if_pos (by rw [outputFramesA_eq]; norm_num [N_FRAMES])]
  have hE := energyA_one_lb
  rw [max_eq_left (le_of_lt hE)]
  have := Real.logb_lt_logb (by norm_num : (1 : ℝ) < 10)
    (by norm_num : (0 : ℝ) < 1e-10) hE
  rw [logb_1e10] at this
  exact this

lemma maxValA_one : -10 < maxValA [(1 : ℝ)] := by
  refine lt_of_lt_of_le rawMelA_one_381000 ?_
  exact Finset.le_sup' (rawMelA [(1 : ℝ)])
    (Finset.mem_range.mpr (by norm_num [N_MELS, N_FRAMES]))

/-- Claim C4: the two in-source mel spectrogram revisions are not
extensionally equal — on the one-sample clip `[1]` the reflection-padded
revision A and the right-zero-padded revision B produce different output
matrices (revision B outputs the constant silence matrix `-1.5`, revision A
does not). -/
theorem c4_padding_variants_differ :
    ∃ audio : List ℝ, melListA audio ≠ melListB audio := by
  refine ⟨[1], ?_⟩
  intro heq
  have hB := melListB_floor [(1 : ℝ)] (fun f _ => frameB_one_zero f)
  obtain ⟨i0, hi0, hsup⟩ :=
    Finset.exists_mem_eq_sup' melIdx_nonempty (rawMelA [(1 : ℝ)])
  have hi0lt : i0 < N_MELS * N_FRAMES := Finset.mem_range.mp hi0
  have hAval : (melListA [(1 : ℝ)]).getD i0 0 = melOutA [(1 : ℝ)] i0 := by
    unfold melListA
    rw [List.getD_eq_getElem _ _ (by simpa using hi0lt)]
    simp
  have hBval : (melListB [(1 : ℝ)]).getD i0 0 = -1.5 := by
    rw [hB, List.getD_eq_getElem _ _ (by simpa using hi0lt)]
    simp
  have hMi0 : maxValA [(1 : ℝ)] = rawMelA [(1 : ℝ)] i0 := hsup
  have hout : (-1.5 : ℝ) < melOutA [(1 : ℝ)] i0 := by
    unfold melOutA
    rw [← hMi0, max_eq_left
      (by linarith : maxValA [(1 : ℝ)] - 8 ≤ maxValA [(1 : ℝ)])]
    have := maxValA_one
    linarith
  rw [heq, hBval] at hAval
  linarith

end Whisper
